import Mathlib

/-!
Verification of the mobpdf markup-to-document segmentation pipeline.

This file gives a shallow embedding of the parser component of the
repository (style analysis, heading classification, segmentation of a
markup tree into sections, the three repair/merge passes, and the
renderer), together with theorems settling the specification claims.

Modelling conventions:
* JS strings are Lean `String`s (sequences of `Char`); lengths are
  counted in characters.
* JS numbers arising from `parseFloat` are modelled as `Option ℚ`,
  where `none` plays the role of `NaN` (`NaN` is absorbing for
  `Math.max`, false in comparisons, and falsy).
* The DOM tree handed to `parseHTMLIntoBlocks` is modelled by the
  inductive type `Node`; the `TreeWalker` traversal with its
  consumed-set is modelled by a recursive walk carrying a flag that
  records whether some ancestor has already been consumed (an element
  is added to the consumed set only at the moment it is visited, hence
  the set membership test on the element itself is always false and
  only the ancestor check matters).
* Character classes of the JavaScript regexes (`\w`, `\s`, `[a-z]`,
  `[A-Z]`, `\d`) are modelled over Unicode code points; `\s` covers
  the JS whitespace set.
-/

namespace Mobpdf

/-! ## Character classes and basic string operations -/

/-- JS regex `\d` / `[0-9]`. -/
def isDigitCh (c : Char) : Bool := 0x30 ≤ c.toNat && c.toNat ≤ 0x39

/-- JS regex `[a-z]`. -/
def isLowerAZ (c : Char) : Bool := 0x61 ≤ c.toNat && c.toNat ≤ 0x7A

/-- JS regex `[A-Z]`. -/
def isUpperAZ (c : Char) : Bool := 0x41 ≤ c.toNat && c.toNat ≤ 0x5A

/-- JS regex `\w`, i.e. `[A-Za-z0-9_]`. -/
def isWordChar (c : Char) : Bool :=
  isUpperAZ c || isLowerAZ c || isDigitCh c || c.toNat == 0x5F

/-- The JS whitespace class `\s` (also the set trimmed by
`String.prototype.trim`): tab, LF, VT, FF, CR, space, NBSP, various
Unicode space separators, and the BOM. -/
def jsWsChar (c : Char) : Bool :=
  c.toNat == 0x9 || c.toNat == 0xA || c.toNat == 0xB || c.toNat == 0xC ||
  c.toNat == 0xD || c.toNat == 0x20 || c.toNat == 0xA0 || c.toNat == 0x1680 ||
  (0x2000 ≤ c.toNat && c.toNat ≤ 0x200A) ||
  c.toNat == 0x2028 || c.toNat == 0x2029 || c.toNat == 0x202F ||
  c.toNat == 0x205F || c.toNat == 0x3000 || c.toNat == 0xFEFF

/-- `String.prototype.toLowerCase` restricted to ASCII (sufficient for
the tag names and literal keywords it is applied to in the source). -/
def jsToLowerChar (c : Char) : Char :=
  if 0x41 ≤ c.toNat ∧ c.toNat ≤ 0x5A then Char.ofNat (c.toNat + 32) else c

/-- Trim JS whitespace from both ends of a character list. -/
def trimList (cs : List Char) : List Char :=
  ((cs.dropWhile jsWsChar).reverse.dropWhile jsWsChar).reverse

/-- `String.prototype.trim`. -/
def jsTrim (s : String) : String := ⟨trimList s.data⟩

/-- Lowercasing of a whole string (used on tag names). -/
def tagLower (t : String) : String := ⟨t.data.map jsToLowerChar⟩

/-- Last-character test, e.g. `text.endsWith('-')` for a single char. -/
def endsWithChar (s : String) (c : Char) : Bool := s.data.getLast? == some c

/-- The test `text.match(/[.!?]$/)` on a string with no trailing
line terminator. -/
def endsWithPunct (s : String) : Bool :=
  match s.data.getLast? with
  | some c => c == '.' || c == '!' || c == '?'
  | none => false

/-- The test `text[0].toLowerCase() === text[0]` on a non-empty string
(true also for digits and punctuation, which are unchanged by
lowercasing); false on the empty string. -/
def startsLowerJS (s : String) : Bool :=
  match s.data with
  | [] => false
  | c :: _ => jsToLowerChar c == c

/-- The test `text.match(/^[A-Z]/)`. -/
def startsUpperAZ (s : String) : Bool :=
  match s.data with
  | [] => false
  | c :: _ => isUpperAZ c

/-- The test `text.match(/^\d+\./)`. -/
def startsWithDigitsDot (s : String) : Bool :=
  let ds := s.data.takeWhile isDigitCh
  let rest := s.data.dropWhile isDigitCh
  ds ≠ [] && rest.head? == some '.'

/-- The test `text.includes('.')`. -/
def containsDot (s : String) : Bool := s.data.contains '.'

/-- Numeric value of a list of decimal digits (used for `parseInt` on
an all-digit group). -/
def digitsVal (ds : List Char) : ℕ :=
  ds.foldl (fun acc c => acc * 10 + (c.toNat - 0x30)) 0

/-! ## JS numbers: `Option ℚ` with `none` as `NaN` -/

/-- A JS number as produced by `parseFloat`: `none` models `NaN`. -/
abbrev JSNum := Option ℚ

/-- `Math.max` (absorbing on `NaN`). -/
def jsMax (a b : JSNum) : JSNum :=
  match a, b with
  | some x, some y => some (max x y)
  | _, _ => none

/-- The comparison `x > t` (false when `x` is `NaN`). -/
def jsGt (x : JSNum) (t : ℚ) : Bool :=
  match x with
  | some q => decide (t < q)
  | none => false

/-- JS truthiness of a number (`0` and `NaN` are falsy). -/
def jsTruthy (x : JSNum) : Bool :=
  match x with
  | some q => decide (q ≠ 0)
  | none => false

/-! ## Data model: sections and markup nodes -/

/-- The `type` field of a section object. -/
inductive SType where
  | heading
  | paragraph
  | image
deriving DecidableEq, Repr

/-- An entry of a section's `images` array. -/
structure Image where
  src : String
deriving DecidableEq, Repr

/-- A section object as produced by `createSection`. -/
structure Section where
  type : SType
  content : String
  level : Int
  images : List Image
deriving DecidableEq, Repr

/-- `createSection(type, content, level = 0, images = [])`. -/
def createSection (type : SType) (content : String) (level : Int := 0)
    (images : List Image := []) : Section :=
  { type := type, content := content, level := level, images := images }

/-- A markup (DOM) node: an element with tag, attributes and children,
or a text node. -/
inductive Node where
  | elem (tag : String) (attrs : List (String × String)) (children : List Node)
  | text (s : String)

/-- `el.getAttribute(name)` (`none` models `null`). -/
def getAttr (attrs : List (String × String)) (name : String) : Option String :=
  (attrs.find? (fun p => p.1 == name)).map (·.2)

mutual

/-- `node.textContent`: concatenation of all text-node data in the
subtree, in document order. -/
def textContent : Node → String
  | .text s => s
  | .elem _ _ children => textContentList children

/-- `textContent` of a list of sibling nodes. -/
def textContentList : List Node → String
  | [] => ""
  | n :: rest => textContent n ++ textContentList rest

end

/-- Whether a node is an element. -/
def isElemNode : Node → Bool
  | .elem _ _ _ => true
  | .text _ => false

/-- `el.firstElementChild`. -/
def firstElementChild (children : List Node) : Option Node :=
  children.find? isElemNode

/-- Tag of an element node (`""` for a text node). -/
def nodeTag : Node → String
  | .elem t _ _ => t
  | .text _ => ""

/-- Children of a node. -/
def nodeChildren : Node → List Node
  | .elem _ _ cs => cs
  | .text _ => []

/-- Remove the first element child from a list of siblings (the
`cloneFirstChild.remove()` step of `extractNestedHeading`). -/
def removeFirstElem : List Node → List Node
  | [] => []
  | .text s :: rest => .text s :: removeFirstElem rest
  | .elem _ _ _ :: rest => rest

mutual

/-- All element descendants of a node, in document order, excluding
the node itself (`el.querySelectorAll('*')`). -/
def elemDescendants : Node → List Node
  | .text _ => []
  | .elem _ _ cs => elemDescList cs

/-- Element descendants of a sibling list (each listed element,
followed by its own element descendants; text nodes are skipped). -/
def elemDescList : List Node → List Node
  | [] => []
  | n :: rest => (if isElemNode n then n :: elemDescendants n else []) ++ elemDescList rest

end

/-! ## Style attribute analysis (`parseStyle`) -/

/-- Case-insensitive literal prefix match: if `cs` begins with `pat`
(comparing lowercased characters; `pat` is given lowercase), return
the rest of `cs`. -/
def matchCI : List Char → List Char → Option (List Char)
  | [], cs => some cs
  | _, [] => none
  | p :: ps, c :: cs => if jsToLowerChar c == p then matchCI ps cs else none

/-- `[\d.]` (the font-size group's character class). -/
def isDigitDot (c : Char) : Bool := isDigitCh c || c == '.'

/-- `parseFloat` on a string drawn from `[\d.]+`: leading decimal
digits, optionally a dot and more digits; `none` (NaN) when no digit
is found before the second dot. -/
def parseFloatQ (g : List Char) : JSNum :=
  let d1 := g.takeWhile isDigitCh
  let rest := g.dropWhile isDigitCh
  let d2 := match rest with
    | '.' :: r => r.takeWhile isDigitCh
    | _ => []
  if d1 = [] ∧ d2 = [] then none
  else some (mkRat (digitsVal d1 * 10 ^ d2.length + digitsVal d2) (10 ^ d2.length))

/-- Try to match `font-size:\s*([\d.]+)pt` (case-insensitive) at the
head of `cs`; on success return the captured group. -/
def matchFontSizeAt (cs : List Char) : Option (List Char) :=
  match matchCI "font-size:".data cs with
  | none => none
  | some r1 =>
    let r2 := r1.dropWhile jsWsChar
    let g := r2.takeWhile isDigitDot
    let r3 := r2.dropWhile isDigitDot
    if g = [] then none
    else match r3 with
      | p :: t :: _ => if (jsToLowerChar p == 'p') && (jsToLowerChar t == 't') then some g else none
      | _ => none

/-- Left-to-right scan for the first match of the font-size pattern
(`style.match(/font-size:\s*([\d.]+)pt/i)`). -/
def findFontSize : List Char → Option (List Char)
  | [] => none
  | c :: rest =>
    match matchFontSizeAt (c :: rest) with
    | some g => some g
    | none => findFontSize rest

/-- Try to match `font-weight:\s*(bold|\d+)` (case-insensitive) at the
head of `cs`; on success return the captured group as it appears in
the input (original case). -/
def matchFontWeightAt (cs : List Char) : Option (List Char) :=
  match matchCI "font-weight:".data cs with
  | none => none
  | some r1 =>
    let r2 := r1.dropWhile jsWsChar
    match matchCI "bold".data r2 with
    | some _ => some (r2.take 4)
    | none =>
      let g := r2.takeWhile isDigitCh
      if g = [] then none else some g

/-- Left-to-right scan for the first match of the font-weight pattern. -/
def findFontWeight : List Char → Option (List Char)
  | [] => none
  | c :: rest =>
    match matchFontWeightAt (c :: rest) with
    | some g => some g
    | none => findFontWeight rest

/-- Try to match `font-style:\s*italic` (case-insensitive) at the head
of `cs`. -/
def matchFontStyleAt (cs : List Char) : Bool :=
  match matchCI "font-style:".data cs with
  | none => false
  | some r1 =>
    let r2 := r1.dropWhile jsWsChar
    (matchCI "italic".data r2).isSome

/-- Left-to-right scan for the font-style pattern. -/
def findFontStyle : List Char → Bool
  | [] => false
  | c :: rest => matchFontStyleAt (c :: rest) || findFontStyle rest

/-- The result record of `parseStyle`. -/
structure StyleProps where
  fontSize : JSNum
  isBold : Bool
  isItalic : Bool

/-- `parseStyle(styleAttr)`: extract font size (0 when the pattern is
absent), boldness (`bold` literal, compared case-sensitively after a
case-insensitive match, or a numeric weight ≥ 600) and italicness. -/
def parseStyle (styleAttr : String) : StyleProps :=
  let fontSize : JSNum :=
    match findFontSize styleAttr.data with
    | some g => parseFloatQ g
    | none => some 0
  let isBold : Bool :=
    match findFontWeight styleAttr.data with
    | some g =>
      (g == "bold".data) ||
        (let ds := g.takeWhile isDigitCh
         ds ≠ [] && digitsVal ds ≥ 600)
    | none => false
  { fontSize := fontSize, isBold := isBold, isItalic := findFontStyle styleAttr.data }

/-! ## Font property aggregation (`extractFontProperties`) -/

/-- `extractFontProperties(el)`: max font size over the element and
all element descendants; bold if the element's own style, any
descendant's style, or a `b`/`strong` descendant says so. -/
def extractFontProperties (n : Node) : JSNum × Bool :=
  match n with
  | .text _ => (some 0, false)
  | .elem _ attrs _ =>
    let own := parseStyle ((getAttr attrs "style").getD "")
    let start : JSNum × Bool := (jsMax (some 0) own.fontSize, own.isBold)
    (elemDescendants n).foldl
      (fun acc c =>
        match c with
        | .elem ct cattrs _ =>
          let cs := parseStyle ((getAttr cattrs "style").getD "")
          (jsMax acc.1 cs.fontSize,
           acc.2 || cs.isBold || tagLower ct == "b" || tagLower ct == "strong")
        | .text _ => acc)
      start

/-! ## Heading classification -/

/-- `isLikelyHeading(text, fontSize, isBold)`. -/
def isLikelyHeading (text : String) (fontSize : JSNum) (isBold : Bool) : Bool :=
  jsGt fontSize 14 ||
  (jsGt fontSize 12 && isBold) ||
  (isBold && decide (text.length < 200) && !containsDot text && !startsWithDigitsDot text) ||
  (jsGt fontSize 16 && decide (text.length < 300))

/-- `getHeadingLevel(fontSize, isBold)`. -/
def getHeadingLevel (fontSize : JSNum) (isBold : Bool) : Int :=
  if jsGt fontSize 20 then 1
  else if jsGt fontSize 18 then 2
  else if jsGt fontSize 16 then 2
  else if jsGt fontSize 14 then 3
  else if isBold && jsGt fontSize 12 then 3
  else 3

/-- Tag test `tagName.match(/^h[1-6]$/)` (on a lowercased tag). -/
def isHeadingTagStr (t : String) : Bool :=
  match t.data with
  | ['h', c] => '1' ≤ c && c ≤ '6'
  | _ => false

/-- `parseInt(tagName.charAt(1))` for a tag matching `h[1-6]`. -/
def headingTagLevel (t : String) : Int :=
  match t.data with
  | _ :: c :: _ => (c.toNat : Int) - 0x30
  | _ => 0

/-! ## Hyphenation repair (`fixHyphenatedWords`) -/

/-- Try to match the pattern `(\w{2,})-\s*\n?\s*([a-z])` at the head of
`cs` (the greedy `\w{2,}` takes the maximal word-character run; the
whitespace between the hyphen and the lowercase letter is any run of
`\s`, since `\s*\n?\s*` matches exactly the whitespace runs). On
success return the word-run, the lowercase letter, and the rest. -/
def hyphMatch (cs : List Char) : Option (List Char × Char × List Char) :=
  if 2 ≤ (cs.takeWhile isWordChar).length then
    match cs.dropWhile isWordChar with
    | '-' :: r2 =>
      match r2.dropWhile jsWsChar with
      | c :: r4 => if isLowerAZ c then some (cs.takeWhile isWordChar, c, r4) else none
      | [] => none
    | _ => none
  else none

theorem hyphMatch_some_length {cs w : List Char} {lc : Char} {r4 : List Char}
    (h : hyphMatch cs = some (w, lc, r4)) : r4.length + 4 ≤ cs.length := by
  unfold hyphMatch at h
  have e1 : (cs.takeWhile isWordChar).length + (cs.dropWhile isWordChar).length
      = cs.length := by
    conv_rhs => rw [← List.takeWhile_append_dropWhile isWordChar cs]
    exact (List.length_append _ _).symm
  split at h
  · rename_i hw
    split at h
    · rename_i r2 heq
      split at h
      · rename_i c r4' heq2
        have e2 : (r2.dropWhile jsWsChar).length ≤ r2.length :=
          (List.dropWhile_sublist _).length_le
        split at h
        · cases h
          rw [heq] at e1
          rw [heq2] at e2
          simp at e1 e2
          omega
        · cases h
      · cases h
    · cases h
  · cases h

/-- Fuelled scanner for the global replacement
`text.replace(/(\w{2,})-\s*\n?\s*([a-z])/g, '$1$2')`: scan left to
right; at a match emit the word-run and the lowercase letter (deleting
the hyphen and whitespace) and continue after the match, otherwise
emit the character and move on. Every step consumes at least one
character, so fuel equal to the length of the input never runs out. -/
def fixHyphGo : ℕ → List Char → List Char
  | _, [] => []
  | 0, cs => cs
  | fuel + 1, c :: rest =>
    match hyphMatch (c :: rest) with
    | some (w, lc, r4) => w ++ lc :: fixHyphGo fuel r4
    | none => c :: fixHyphGo fuel rest

/-- The global hyphen-repair replacement on a character list. -/
def fixHyphList (cs : List Char) : List Char := fixHyphGo cs.length cs

/-- `fixHyphenatedWords(text)`. -/
def fixHyphenatedWords (text : String) : String := ⟨fixHyphList text.data⟩

/-! ## Page markers and the segmenter -/

/-- `isPageMarker(el)`: a `div` whose `id` matches `/^page\d+$/`. -/
def isPageMarker (n : Node) : Bool :=
  match n with
  | .text _ => false
  | .elem tag attrs _ =>
    tagLower tag == "div" &&
      (match ((getAttr attrs "id").getD "").data with
       | 'p' :: 'a' :: 'g' :: 'e' :: ds => ds ≠ [] && ds.all isDigitCh
       | _ => false)

/-- `extractNestedHeading(el)`: if the element's first element child
is a heading tag, or the element's aggregated font properties indicate
heading styling, extract the first child's trimmed text as a heading
and return it together with the remaining trimmed text of the element
(the clone with the first element child removed). -/
def extractNestedHeading (n : Node) : Option (Section × String) :=
  match n with
  | .text _ => none
  | .elem _ _ children =>
    match firstElementChild children with
    | none => none
    | some fc =>
      let firstTag := tagLower (nodeTag fc)
      let fp := extractFontProperties n
      let headingText := jsTrim (textContent fc)
      if headingText = "" then none
      else
        let isHTag := isHeadingTagStr firstTag
        let isHStyle := (jsTruthy fp.1 && jsGt fp.1 14) ||
          (fp.2 && decide (headingText.length < 200))
        if !isHTag && !isHStyle then none
        else
          let level : Int :=
            if isHTag then headingTagLevel firstTag
            else if jsGt fp.1 18 then 1
            else if jsGt fp.1 16 then 2
            else 3
          let remainingText := jsTrim (textContentList (removeFirstElem children))
          some (createSection .heading headingText level, remainingText)

/-- `processImage(el)`: emit an image section when a non-empty `src`
attribute is present (the element is consumed exactly when a section
is returned). -/
def processImage (n : Node) : Option Section :=
  match n with
  | .text _ => none
  | .elem _ attrs _ =>
    match getAttr attrs "src" with
    | some src => if src = "" then none else some (createSection .image "" 0 [⟨src⟩])
    | none => none

/-- `processHeading(el)`: emit a heading section at the tag's numeric
level when the trimmed text is non-empty. -/
def processHeading (n : Node) : Option Section :=
  let text := jsTrim (textContent n)
  if text = "" then none
  else some (createSection .heading text (headingTagLevel (tagLower (nodeTag n))))

/-- `processTextElement(el, tagName)` for `p`/`div`/`span` elements:
nested-heading extraction first (for `p`/`div`), then style-based
heading classification, then plain paragraph emission (`span` only
when its text exceeds 50 characters). `none` means the element was
not consumed. -/
def processTextElement (n : Node) (tagName : String) : Option (List Section) :=
  let text := jsTrim (textContent n)
  if text = "" then none
  else
    let fp := extractFontProperties n
    match (if tagName = "p" ∨ tagName = "div" then extractNestedHeading n else none) with
    | some (hd, remaining) =>
      some (hd :: (if remaining ≠ "" then [createSection .paragraph remaining] else []))
    | none =>
      if isLikelyHeading text fp.1 fp.2 then
        some [createSection .heading text (getHeadingLevel fp.1 fp.2)]
      else if tagName = "p" ∨ tagName = "div" then
        some [createSection .paragraph text]
      else if tagName = "span" ∧ 50 < text.length then
        some [createSection .paragraph text]
      else none

/-- Dispatch of the walker body on one element: images, native
headings, text containers; any other tag is ignored and not consumed.
`some secs` means the element was consumed and contributed `secs`. -/
def processElement (n : Node) : Option (List Section) :=
  match n with
  | .text _ => none
  | .elem tag _ _ =>
    let t := tagLower tag
    if t = "img" then (processImage n).map ([·])
    else if isHeadingTagStr t then (processHeading n).map ([·])
    else if t = "p" ∨ t = "div" ∨ t = "span" then processTextElement n t
    else none

mutual

/-- The `TreeWalker` loop of `parseHTMLIntoBlocks`, restricted to one
node and its subtree. `flag` records whether an ancestor has been
consumed (`isParentProcessed`): a page marker is skipped without being
consumed and without blocking its children; a consumed-ancestor node
is skipped; otherwise the element is processed and, if consumed, its
descendants see `flag = true`. -/
def segNode (flag : Bool) : Node → List Section
  | .text _ => []
  | .elem tag attrs children =>
    if isPageMarker (.elem tag attrs children) then segList flag children
    else if flag then segList true children
    else
      match processElement (.elem tag attrs children) with
      | some secs => secs ++ segList true children
      | none => segList false children

/-- The walker over a list of sibling subtrees, in document order. -/
def segList (flag : Bool) : List Node → List Section
  | [] => []
  | n :: rest => segNode flag n ++ segList flag rest

end

/-! ## Pass 1: `mergeHyphenatedWords` -/

/-- The in-place content rewrite of Pass 1: a section with truthy
(non-empty) content has its content run through
`fixHyphenatedWords`. -/
def hyphFixContent (s : Section) : Section :=
  if s.content ≠ "" then { s with content := fixHyphenatedWords s.content } else s

/-- Pass 1: fix hyphenated words inside each section's (truthy)
content, and merge an adjacent paragraph pair when the first's trimmed
content ends in a hyphen and the second's trimmed content starts with
a character unchanged by lowercasing (the merged pair is re-fixed and
the second section is skipped). -/
def mergeHyphenatedWords : List Section → List Section
  | [] => []
  | [cur] => [hyphFixContent cur]
  | cur :: next :: rest2 =>
    let cur' := hyphFixContent cur
    if cur'.type = SType.paragraph ∧ next.type = SType.paragraph then
      let currentText := jsTrim cur'.content
      let nextText := jsTrim next.content
      if endsWithChar currentText '-' && nextText ≠ "" && startsLowerJS nextText then
        createSection .paragraph
            (fixHyphenatedWords (⟨currentText.data.dropLast⟩ ++ nextText))
          :: mergeHyphenatedWords rest2
      else cur' :: mergeHyphenatedWords (next :: rest2)
    else cur' :: mergeHyphenatedWords (next :: rest2)

/-! ## Pass 2: `mergeAdjacentParagraphs` -/

/-- The `shouldMerge` condition of Pass 2, computed on the trimmed
texts of an adjacent paragraph pair. -/
def shouldMergeParas (currentText nextText : String) : Bool :=
  let currentEndsWithPunctuation := endsWithPunct currentText
  let nextStartsLowercase := startsLowerJS nextText
  let currentEndsWithHyphen := endsWithChar currentText '-'
  let currentIsShortIncomplete := decide (currentText.length < 100) && !currentEndsWithPunctuation
  (!currentEndsWithPunctuation && nextStartsLowercase) ||
    currentEndsWithHyphen ||
    (currentIsShortIncomplete && nextStartsLowercase)

/-- One scan of the Pass 2 loop: returns the new list and the
`changed` flag. An adjacent paragraph pair with an empty-trimmed
second member is passed over unmerged; a merging pair is replaced by a
fresh paragraph (space-joined contents) and the second member is
skipped. -/
def mergeParasOnce : List Section → List Section × Bool
  | [] => ([], false)
  | [c] => ([c], false)
  | cur :: next :: rest =>
    if cur.type = SType.paragraph ∧ next.type = SType.paragraph then
      let nextText := jsTrim next.content
      if nextText = "" then
        let r := mergeParasOnce (next :: rest)
        (cur :: r.1, r.2)
      else if shouldMergeParas (jsTrim cur.content) nextText then
        let r := mergeParasOnce rest
        (createSection .paragraph (cur.content ++ " " ++ next.content) :: r.1, true)
      else
        let r := mergeParasOnce (next :: rest)
        (cur :: r.1, r.2)
    else
      let r := mergeParasOnce (next :: rest)
      (cur :: r.1, r.2)

/-- The `while (changed)` loop of Pass 2, with fuel. Each changing
scan strictly shrinks the list, so `length + 1` units of fuel always
reach the fixed point. -/
def mergeParasLoop : ℕ → List Section → List Section
  | 0, l => l
  | fuel + 1, l =>
    let r := mergeParasOnce l
    if r.2 then mergeParasLoop fuel r.1 else r.1

/-- Pass 2: `mergeAdjacentParagraphs(sections)` (iterate one scan to a
fixed point). -/
def mergeAdjacentParagraphs (sections : List Section) : List Section :=
  mergeParasLoop (sections.length + 1) sections

/-! ## Pass 3: `mergeAdjacentHeadings` -/

/-- `text.split('\n')` on a list of characters. -/
def splitNL : List Char → List (List Char)
  | [] => [[]]
  | c :: rest =>
    if c = '\n' then [] :: splitNL rest
    else
      match splitNL rest with
      | line :: lines => (c :: line) :: lines
      | [] => [[c]]

/-- The fixed continuation-word set of Pass 3. -/
def headingContinuationWords : List String :=
  ["of", "and", "the", "a", "an", "in", "on", "at", "to", "for", "with", "by"]

/-- The test `firstLine.match(/^(of|and|the|a|an|in|on|at|to|for|with|by)\s/i)`. -/
def startsWithContWord (line : String) : Bool :=
  headingContinuationWords.any (fun w =>
    match matchCI w.data line.data with
    | some (c :: _) => jsWsChar c
    | _ => false)

/-- The `looksLikeContinuation` test of Pass 3 on the trimmed first
line of the paragraph following a heading. -/
def looksLikeContinuation (firstLine : String) : Bool :=
  decide (firstLine.length < 50) &&
    (startsWithContWord firstLine ||
      (!startsUpperAZ firstLine && decide (firstLine.length < 30)))

/-- Pass 3: `mergeAdjacentHeadings(sections)`: append a short
continuation first line of a following paragraph to a heading (the
paragraph's remaining lines survive as a new paragraph when
non-empty), and merge adjacent headings of identical level. -/
def mergeAdjacentHeadings : List Section → List Section
  | [] => []
  | [c] => [c]
  | cur :: next :: rest =>
    let nextText := jsTrim next.content
    let lines := splitNL nextText.data
    let firstLine : String := jsTrim ⟨lines.headD []⟩
    if cur.type = SType.heading ∧ next.type = SType.paragraph ∧
        (looksLikeContinuation firstLine && !endsWithPunct (jsTrim cur.content)) = true then
      let remainingLines : String := jsTrim ⟨List.intercalate ['\n'] lines.tail⟩
      createSection .heading (cur.content ++ " " ++ firstLine) cur.level []
        :: ((if remainingLines ≠ "" then [createSection .paragraph remainingLines] else [])
            ++ mergeAdjacentHeadings rest)
    else if cur.type = SType.heading ∧ next.type = SType.heading ∧ cur.level = next.level then
      createSection .heading (cur.content ++ " " ++ next.content) cur.level []
        :: mergeAdjacentHeadings rest
    else cur :: mergeAdjacentHeadings (next :: rest)

/-! ## Renderer -/

/-- One character of the text-node serialization used by
`escapeHtml` (set `textContent`, read `innerHTML`): `&`, `<`, `>` and
NBSP are escaped, everything else passes through. -/
def escapeChar (c : Char) : List Char :=
  if c = '&' then "&amp;".data
  else if c = '<' then "&lt;".data
  else if c = '>' then "&gt;".data
  else if c.toNat = 0xA0 then "&nbsp;".data
  else [c]

/-- `escapeHtml(text)`. -/
def escapeHtml (text : String) : String := ⟨(text.data.map escapeChar).flatten⟩

/-- `section.level || 2`: the JS or-default on an integer level (0 is
the only falsy integer). -/
def jsOrLevel (level d : Int) : Int := if level = 0 then d else level

/-- The image loop of `renderSection`: images with a truthy `src`
render as `<img src="..." alt="" />`, with the raw `src` inserted. -/
def renderImages (images : List Image) : String :=
  images.foldl
    (fun acc img =>
      if img.src ≠ "" then acc ++ "<img src=\"" ++ img.src ++ "\" alt=\"\" />" else acc)
    ""

/-- `renderSection(section)`. -/
def renderSection (s : Section) : String :=
  if s.content = "" ∧ s.images = [] then ""
  else if s.type = SType.heading then
    let tag := "h" ++ (min (jsOrLevel s.level 2) 6).repr
    "<" ++ tag ++ ">" ++ escapeHtml s.content ++ "</" ++ tag ++ ">"
  else if s.type = SType.image then renderImages s.images
  else if jsTrim s.content ≠ "" then
    "<p>" ++ escapeHtml s.content ++ "</p>" ++ renderImages s.images
  else ""

/-- `renderSections(sections)`. -/
def renderSections (sections : List Section) : String :=
  String.join (sections.map renderSection)

/-! ## Top-level pipeline -/

/-- `parseHTMLIntoBlocks(html)`: segment the parsed markup (the
children of the temporary container) and run the three merge passes.
The input is modelled as the list of parsed top-level nodes. -/
def parseHTMLIntoBlocks (nodes : List Node) : List Section :=
  mergeAdjacentHeadings (mergeAdjacentParagraphs (mergeHyphenatedWords (segList false nodes)))

/-- `extractSectionsFromDocument(doc)`: the per-page loop of the
caller. Each page's markup is parsed by its own `parseHTMLIntoBlocks`
call (which includes the merge passes), and the per-page results are
concatenated in page order. The external PDF engine is abstracted as
the list of per-page markup trees. -/
def extractSectionsFromDocument (pages : List (List Node)) : List Section :=
  (pages.map parseHTMLIntoBlocks).flatten

/-! ## Basic lemmas about trimming and hyphen repair -/

theorem mem_of_mem_trimList {c : Char} {cs : List Char} (h : c ∈ trimList cs) : c ∈ cs := by
  unfold trimList at h
  rw [List.mem_reverse] at h
  have h2 := (List.dropWhile_sublist jsWsChar).subset h
  rw [List.mem_reverse] at h2
  exact (List.dropWhile_sublist jsWsChar).subset h2

theorem endsWithChar_jsTrim_false {c : Char} {s : String} (h : c ∉ s.data) :
    endsWithChar (jsTrim s) c = false := by
  unfold endsWithChar jsTrim
  cases hl : (trimList s.data).getLast? with
  | none => simp
  | some d =>
    have hmem := List.mem_of_mem_getLast? hl
    by_cases hdc : d = c
    · exact absurd (mem_of_mem_trimList (hdc ▸ hmem)) h
    · simp [hl, hdc]

theorem hyphMatch_some_hyphen {cs : List Char} {x : List Char × Char × List Char}
    (h : hyphMatch cs = some x) : '-' ∈ cs := by
  unfold hyphMatch at h
  split at h
  · split at h
    · rename_i r2 heq
      have : '-' ∈ cs.dropWhile isWordChar := by rw [heq]; exact List.mem_cons_self _ _
      exact (List.dropWhile_sublist isWordChar).subset this
    · cases h
  · cases h

theorem fixHyphGo_no_hyphen :
    ∀ (fuel : ℕ) (cs : List Char), '-' ∉ cs → fixHyphGo fuel cs = cs := by
  intro fuel
  induction fuel with
  | zero => intro cs _; cases cs <;> rfl
  | succ n ih =>
    intro cs h
    cases cs with
    | nil => rfl
    | cons c rest =>
      cases hm : hyphMatch (c :: rest) with
      | some x => exact absurd (hyphMatch_some_hyphen hm) h
      | none =>
        simp only [fixHyphGo, hm]
        rw [ih rest (fun hc => h (List.mem_cons_of_mem _ hc))]

theorem fixHyphList_no_hyphen {cs : List Char} (h : '-' ∉ cs) : fixHyphList cs = cs :=
  fixHyphGo_no_hyphen _ _ h

theorem fixHyphenatedWords_no_hyphen {s : String} (h : '-' ∉ s.data) :
    fixHyphenatedWords s = s := by
  unfold fixHyphenatedWords
  rw [fixHyphList_no_hyphen h]

theorem hyphFixContent_no_hyphen {s : Section} (h : '-' ∉ s.content.data) :
    hyphFixContent s = s := by
  unfold hyphFixContent
  split
  · rw [fixHyphenatedWords_no_hyphen h]
  · rfl

/-! ## Claim C5 -/

/-- Claim C5: `getHeadingLevel` maps aggregated font size 22pt to
level 1, 19pt to level 2, and 15pt with bold to level 3; in general
fontSize>20 gives 1, fontSize>18 or fontSize>16 gives 2, fontSize>14
gives 3, bold with fontSize>12 gives 3, and every other case gives
the fallback level 3. -/
theorem C5_heading_levels :
    getHeadingLevel (some 22) false = 1 ∧
    getHeadingLevel (some 19) false = 2 ∧
    getHeadingLevel (some 15) true = 3 ∧
    ∀ (fs : ℚ) (b : Bool),
      getHeadingLevel (some fs) b =
        if 20 < fs then 1
        else if 18 < fs then 2
        else if 16 < fs then 2
        else if 14 < fs then 3
        else if b = true ∧ 12 < fs then 3
        else 3 := by
  refine ⟨by norm_num [getHeadingLevel, jsGt], by norm_num [getHeadingLevel, jsGt],
    by norm_num [getHeadingLevel, jsGt], ?_⟩
  intro fs b
  simp only [getHeadingLevel, jsGt, Bool.and_eq_true, decide_eq_true_eq]

/-! ## Claim C4 -/

/-- The clamping function described by the claim: levels below 1 are
clamped up to 1 and levels above 6 down to 6 (stated from the claim's
words, for comparison with the renderer's actual behaviour). -/
def claimClampLevel (l : Int) : Int := max 1 (min l 6)

/-- Claim C4 as stated is false: a heading section of level 0 is
rendered as an `h2` tag (the `level || 2` fallback), not as the
claimed clamped level 1. -/
theorem C4_counterexample :
    renderSection (createSection .heading "Title" 0) = "<h2>Title</h2>" ∧
    claimClampLevel 0 = 1 ∧
    ("<h2>Title</h2>" : String) ≠ "<h1>Title</h1>" := by
  refine ⟨by decide, by decide, by decide⟩

/-- Claim C4, amended: for every heading section with non-empty
content, `renderSection` emits a heading tag whose numeric level is
`min(level || 2, 6)` — levels 1..6 pass through with levels above 6
clamped down to 6, while level 0 falls back to 2 (it is not clamped up
to 1) — wrapping the HTML-escaped content. -/
theorem C4_heading_clamp_amended (s : Section) (h1 : s.type = SType.heading)
    (h2 : s.content ≠ "") :
    renderSection s =
      "<" ++ ("h" ++ (min (jsOrLevel s.level 2) 6).repr) ++ ">" ++ escapeHtml s.content ++
        "</" ++ ("h" ++ (min (jsOrLevel s.level 2) 6).repr) ++ ">" := by
  unfold renderSection
  rw [if_neg (fun hc => h2 hc.1), if_pos h1]

theorem C4_witness :
    (createSection SType.heading "T" 7).type = SType.heading ∧
    (createSection SType.heading "T" 7).content ≠ "" ∧
    renderSection (createSection SType.heading "T" 7) =
      "<" ++ ("h" ++ (min (jsOrLevel (createSection SType.heading "T" 7).level 2) 6).repr) ++ ">" ++
        escapeHtml (createSection SType.heading "T" 7).content ++
        "</" ++ ("h" ++ (min (jsOrLevel (createSection SType.heading "T" 7).level 2) 6).repr) ++ ">" :=
  ⟨rfl, by decide, C4_heading_clamp_amended _ rfl (by decide)⟩

/-! ## Claim C3 -/

/-- Pass 2 on an adjacent paragraph pair with non-empty-trimmed second
member: the pair merges (with a single space) exactly when the
source's `shouldMerge` condition holds on the trimmed texts. -/
theorem mergeParas_pair (a b : String) (hb : jsTrim b ≠ "") :
    mergeAdjacentParagraphs [createSection .paragraph a, createSection .paragraph b] =
      if shouldMergeParas (jsTrim a) (jsTrim b)
      then [createSection .paragraph (a ++ " " ++ b)]
      else [createSection .paragraph a, createSection .paragraph b] := by
  unfold mergeAdjacentParagraphs
  show mergeParasLoop 3 _ = _
  by_cases hm : shouldMergeParas (jsTrim a) (jsTrim b) = true
  · rw [if_pos hm]
    simp [mergeParasLoop, mergeParasOnce, createSection, hb, hm]
  · rw [if_neg hm]
    simp [mergeParasLoop, mergeParasOnce, createSection, hb, hm]

/-- The Pass 2 merge condition as the claim words it, with "begins
with a lowercase letter" read as an actual lowercase letter `[a-z]`
(stated from the claim's words, for comparison with the code's
condition). -/
def claimMergeCond (a b : String) : Bool :=
  let aT := jsTrim a
  let bT := jsTrim b
  let lowerLetter := match bT.data with
    | [] => false
    | c :: _ => isLowerAZ c
  (!endsWithPunct aT && lowerLetter) ||
    endsWithChar aT '-' ||
    (decide (aT.length < 100) && !endsWithPunct aT && lowerLetter)

/-- Claim C3 as stated is false: `mergeAdjacentParagraphs` merges the
pair `"abc"`, `"(note)"` although `"(note)"` does not begin with a
lowercase letter (the code tests `c.toLowerCase() === c`, which is
also true for `(`), so the claimed "if and only if" fails in the
only-if direction. -/
theorem C3_counterexample :
    jsTrim "(note)" ≠ "" ∧
    mergeAdjacentParagraphs [createSection .paragraph "abc", createSection .paragraph "(note)"]
      = [createSection .paragraph "abc (note)"] ∧
    claimMergeCond "abc" "(note)" = false := by
  refine ⟨by decide, by decide, by decide⟩

/-- Claim C3, amended: for an adjacent paragraph pair whose second
member has non-empty trimmed text, Pass 2 merges them (single-space
concatenation) if and only if the first's trimmed text does not end
in `.`/`!`/`?` and the second's trimmed text begins with a character
equal to its own lowercase form (a lowercase letter, a digit, or any
other character unchanged by lowercasing — not an uppercase letter),
or the first's trimmed text ends with a hyphen, or the first's
trimmed text is shorter than 100 characters, does not end in
`.`/`!`/`?`, and the second's begins with such a character. -/
theorem C3_merge_condition_amended (a b : String) (hb : jsTrim b ≠ "") :
    mergeAdjacentParagraphs [createSection .paragraph a, createSection .paragraph b] =
      if (!endsWithPunct (jsTrim a) && startsLowerJS (jsTrim b)) ||
         endsWithChar (jsTrim a) '-' ||
         ((decide ((jsTrim a).length < 100) && !endsWithPunct (jsTrim a)) && startsLowerJS (jsTrim b))
      then [createSection .paragraph (a ++ " " ++ b)]
      else [createSection .paragraph a, createSection .paragraph b] := by
  rw [mergeParas_pair a b hb]
  rfl

theorem C3_witness :
    jsTrim "(note)" ≠ "" ∧
    mergeAdjacentParagraphs [createSection .paragraph "abc", createSection .paragraph "(note)"] =
      (if (!endsWithPunct (jsTrim "abc") && startsLowerJS (jsTrim "(note)")) ||
          endsWithChar (jsTrim "abc") '-' ||
          ((decide ((jsTrim "abc").length < 100) && !endsWithPunct (jsTrim "abc")) &&
            startsLowerJS (jsTrim "(note)"))
       then [createSection .paragraph ("abc" ++ " " ++ "(note)")]
       else [createSection .paragraph "abc", createSection .paragraph "(note)"]) :=
  ⟨by decide, C3_merge_condition_amended "abc" "(note)" (by decide)⟩

/-! ## Claim C2 -/

/-- Claim C2 as stated is false: Pass 1 is not idempotent. On the
single paragraph `"ab-c-\nd"` one application yields `"abc-\nd"`
(the replacement consumes `ab-c` and scanning resumes after it), while
a second application further merges to `"abcd"`. -/
theorem C2_counterexample :
    mergeHyphenatedWords (mergeHyphenatedWords [createSection .paragraph "ab-c-\nd"]) ≠
      mergeHyphenatedWords [createSection .paragraph "ab-c-\nd"] := by
  decide

/-- Claim C2, amended: Pass 1 is not idempotent in general — a second
application can re-join hyphen patterns newly exposed by an earlier
replacement, and can merge paragraph pairs newly made adjacent. On
section sequences whose contents contain no hyphen character, Pass 1
is the identity, and is in particular idempotent there. -/
theorem C2_pass1_idempotent_amended (l : List Section)
    (h : ∀ s ∈ l, ('-' : Char) ∉ s.content.data) :
    mergeHyphenatedWords l = l ∧
    mergeHyphenatedWords (mergeHyphenatedWords l) = mergeHyphenatedWords l := by
  have main : ∀ (l : List Section), (∀ s ∈ l, ('-' : Char) ∉ s.content.data) →
      mergeHyphenatedWords l = l := by
    intro l
    induction l with
    | nil => intro _; rfl
    | cons cur tail ih =>
      intro hl
      have hcur : ('-' : Char) ∉ cur.content.data := hl cur (List.mem_cons_self _ _)
      have htail : ∀ s ∈ tail, ('-' : Char) ∉ s.content.data :=
        fun s hs => hl s (List.mem_cons_of_mem _ hs)
      cases tail with
      | nil =>
        show [hyphFixContent cur] = [cur]
        rw [hyphFixContent_no_hyphen hcur]
      | cons next rest2 =>
        rw [mergeHyphenatedWords]
        rw [hyphFixContent_no_hyphen hcur]
        have hend : endsWithChar (jsTrim cur.content) '-' = false := by
          unfold endsWithChar jsTrim
          cases hlast : (trimList cur.content.data).getLast? with
          | none => simp
          | some d =>
            have hmem := List.mem_of_mem_getLast? hlast
            by_cases hd : d = '-'
            · exact absurd (mem_of_mem_trimList (hd ▸ hmem)) hcur
            · simp [hlast, hd]
        split
        · simp only [hend, Bool.false_and, Bool.false_eq_true, if_false]
          rw [ih htail]
        · rw [ih htail]
  have h1 := main l h
  refine ⟨h1, ?_⟩
  rw [h1, h1]

theorem C2_witness :
    (∀ s ∈ [createSection SType.paragraph "hello world", createSection SType.heading "Title" 1],
      ('-' : Char) ∉ s.content.data) ∧
    mergeHyphenatedWords [createSection SType.paragraph "hello world",
        createSection SType.heading "Title" 1] =
      [createSection SType.paragraph "hello world", createSection SType.heading "Title" 1] :=
  ⟨by decide,
   (C2_pass1_idempotent_amended _ (by decide)).1⟩

/-! ## Claim C1: counterexample -/

/-- Claim C1 as stated is false: `extractSectionsFromDocument` runs
`parseHTMLIntoBlocks` — including all three merge passes — once per
page and only concatenates the per-page results, so a paragraph
ending page 0 without terminal punctuation (`"hello"`) and a
paragraph beginning page 1 with a lowercase letter (`"world."`) stay
two separate paragraphs instead of merging. -/
theorem C1_counterexample :
    extractSectionsFromDocument
        [[.elem "div" [("id", "page0")] [.elem "div" [] [.text "hello"]]],
         [.elem "div" [("id", "page1")] [.elem "div" [] [.text "world."]]]] =
      [createSection .paragraph "hello", createSection .paragraph "world."] ∧
    extractSectionsFromDocument
        [[.elem "div" [("id", "page0")] [.elem "div" [] [.text "hello"]]],
         [.elem "div" [("id", "page1")] [.elem "div" [] [.text "world."]]]] ≠
      [createSection .paragraph "hello world."] := by
  refine ⟨by decide, by decide⟩

/-! ## Claim C6 -/

theorem mergeParasOnce_length (l : List Section) :
    (mergeParasOnce l).1.length ≤ l.length := by
  induction l using mergeParasOnce.induct with
  | case1 => simp [mergeParasOnce]
  | case2 c => simp [mergeParasOnce]
  | case3 cur next rest hpair nT hempty ih =>
    have hp1 : cur.type = SType.paragraph := hpair.1
    have hp2 : next.type = SType.paragraph := hpair.2
    have he : jsTrim next.content = "" := hempty
    simp [mergeParasOnce, hp1, hp2, he] at ih ⊢
    omega
  | case4 cur next rest hpair nT hne hm ih =>
    have hp1 : cur.type = SType.paragraph := hpair.1
    have hp2 : next.type = SType.paragraph := hpair.2
    have he : ¬(jsTrim next.content = "") := hne
    have hmm : shouldMergeParas (jsTrim cur.content) (jsTrim next.content) = true := hm
    simp [mergeParasOnce, hp1, hp2, he, hmm] at ih ⊢
    omega
  | case5 cur next rest hpair nT hne hm ih =>
    have hp1 : cur.type = SType.paragraph := hpair.1
    have hp2 : next.type = SType.paragraph := hpair.2
    have he : ¬(jsTrim next.content = "") := hne
    have hmm : ¬(shouldMergeParas (jsTrim cur.content) (jsTrim next.content) = true) := hm
    simp [mergeParasOnce, hp1, hp2, he, hmm] at ih ⊢
    omega
  | case6 cur next rest hpair ih =>
    simp [mergeParasOnce, hpair] at ih ⊢
    omega

theorem mergeParasLoop_length (fuel : ℕ) :
    ∀ l : List Section, (mergeParasLoop fuel l).length ≤ l.length := by
  induction fuel with
  | zero => intro l; simp [mergeParasLoop]
  | succ n ih =>
    intro l
    simp only [mergeParasLoop]
    split
    · exact le_trans (ih _) (mergeParasOnce_length l)
    · exact mergeParasOnce_length l

theorem mergeAdjacentHeadings_length (l : List Section) :
    (mergeAdjacentHeadings l).length ≤ l.length := by
  induction l using mergeAdjacentHeadings.induct with
  | case1 => simp [mergeAdjacentHeadings]
  | case2 c => simp [mergeAdjacentHeadings]
  | case3 cur next rest nT lns fL hcond ih =>
    rw [mergeAdjacentHeadings]
    rw [if_pos hcond]
    simp only []
    split
    · simp at ih ⊢
      omega
    · simp at ih ⊢
      omega
  | case4 cur next rest nT lns fL hncond hcond ih =>
    rw [mergeAdjacentHeadings]
    rw [if_neg hncond, if_pos hcond]
    simp at ih ⊢
    omega
  | case5 cur next rest nT lns fL hncond hncond2 ih =>
    rw [mergeAdjacentHeadings]
    rw [if_neg hncond, if_neg hncond2]
    simp at ih ⊢
    omega

/-- Claim C6: neither Pass 2 (`mergeAdjacentParagraphs`) nor Pass 3
(`mergeAdjacentHeadings`) ever increases the section count: each
returns a sequence no longer than its input. -/
theorem C6_merge_monotonic (l : List Section) :
    (mergeAdjacentParagraphs l).length ≤ l.length ∧
    (mergeAdjacentHeadings l).length ≤ l.length :=
  ⟨mergeParasLoop_length _ l, mergeAdjacentHeadings_length l⟩

/-! ## Claim C7 -/

theorem segList_append (flag : Bool) (a b : List Node) :
    segList flag (a ++ b) = segList flag a ++ segList flag b := by
  induction a with
  | nil => simp [segList]
  | cons n rest ih => simp [segList, ih]

/-- Claim C7: a `div` whose id matches `page` followed by digits
contributes zero sections itself and does not block its descendants:
walking it equals walking its children with the same consumed status
(in particular it is never consumed itself), and at the top level of
`parseHTMLIntoBlocks` the marker is transparent — parsing with the
wrapper equals parsing with the wrapper's children spliced in its
place, so the marker's content appears in the output. -/
theorem C7_page_marker_transparent (tag : String) (attrs : List (String × String))
    (children rest : List Node)
    (h : isPageMarker (.elem tag attrs children) = true) :
    (∀ flag, segNode flag (.elem tag attrs children) = segList flag children) ∧
    parseHTMLIntoBlocks (.elem tag attrs children :: rest) =
      parseHTMLIntoBlocks (children ++ rest) := by
  have hseg : ∀ flag, segNode flag (.elem tag attrs children) = segList flag children := by
    intro flag
    rw [segNode, if_pos h]
  refine ⟨hseg, ?_⟩
  unfold parseHTMLIntoBlocks
  rw [segList, hseg false, segList_append]

theorem C7_witness :
    isPageMarker (.elem "div" [("id", "page2")] [.elem "p" [] [.text "inside"]]) = true ∧
    segNode false (.elem "div" [("id", "page2")] [.elem "p" [] [.text "inside"]]) =
      segList false [.elem "p" [] [.text "inside"]] ∧
    parseHTMLIntoBlocks [.elem "div" [("id", "page2")] [.elem "p" [] [.text "inside"]]] =
      parseHTMLIntoBlocks ([.elem "p" [] [.text "inside"]] ++ []) :=
  ⟨by decide, (C7_page_marker_transparent _ _ _ [] (by decide)).1 false,
   (C7_page_marker_transparent _ _ _ [] (by decide)).2⟩

/-! ## Claim C10 -/

/-- The heading-level range invariant: a heading section's level lies
in 1..6. -/
def GoodLvl (s : Section) : Prop :=
  s.type = SType.heading → 1 ≤ s.level ∧ s.level ≤ 6

theorem goodLvl_paragraph {c : String} : GoodLvl (createSection .paragraph c) := by
  intro ht
  exact absurd ht (by simp [createSection])

theorem getHeadingLevel_range (fs : JSNum) (b : Bool) :
    1 ≤ getHeadingLevel fs b ∧ getHeadingLevel fs b ≤ 6 := by
  unfold getHeadingLevel
  split_ifs <;> omega

theorem headingTagLevel_range {t : String} (h : isHeadingTagStr t = true) :
    1 ≤ headingTagLevel t ∧ headingTagLevel t ≤ 6 := by
  unfold isHeadingTagStr at h
  split at h
  · rename_i c heq
    simp only [headingTagLevel, heq]
    simp only [Bool.and_eq_true, decide_eq_true_eq] at h
    have h1 : 0x31 ≤ c.toNat := h.1
    have h2 : c.toNat ≤ 0x36 := h.2
    omega
  · cases h

theorem extractNestedHeading_goodLvl {n : Node} {hd : Section} {rem : String}
    (h : extractNestedHeading n = some (hd, rem)) : GoodLvl hd := by
  unfold extractNestedHeading at h
  split at h
  · cases h
  · split at h
    · cases h
    · simp only [] at h
      split at h
      · cases h
      · split at h
        · cases h
        · cases h
          intro _
          simp only [createSection]
          constructor
          all_goals
            split
            · rename_i hHTag
              first
              | exact (headingTagLevel_range hHTag).1
              | exact (headingTagLevel_range hHTag).2
            · split
              · omega
              · split <;> omega

theorem processTextElement_goodLvl {n : Node} {t : String} {secs : List Section}
    (h : processTextElement n t = some secs) : ∀ s ∈ secs, GoodLvl s := by
  unfold processTextElement at h
  by_cases htext : jsTrim (textContent n) = ""
  · rw [if_pos htext] at h; cases h
  · rw [if_neg htext] at h
    simp only [] at h
    cases hnest : (if t = "p" ∨ t = "div" then extractNestedHeading n else none) with
    | some pr =>
      obtain ⟨hd, rem⟩ := pr
      have hnested : extractNestedHeading n = some (hd, rem) := by
        by_cases hpd : t = "p" ∨ t = "div"
        · rwa [if_pos hpd] at hnest
        · rw [if_neg hpd] at hnest; cases hnest
      rw [hnest] at h
      simp only [] at h
      cases h
      intro s hs
      rcases List.mem_cons.mp hs with rfl | hs2
      · exact extractNestedHeading_goodLvl hnested
      · split at hs2
        · rcases List.mem_singleton.mp hs2 with rfl
          exact goodLvl_paragraph
        · cases hs2
    | none =>
      rw [hnest] at h
      simp only [] at h
      split at h
      · cases h
        intro s hs
        rcases List.mem_singleton.mp hs with rfl
        intro _
        exact getHeadingLevel_range _ _
      · split at h
        · cases h
          intro s hs
          rcases List.mem_singleton.mp hs with rfl
          exact goodLvl_paragraph
        · split at h
          · cases h
            intro s hs
            rcases List.mem_singleton.mp hs with rfl
            exact goodLvl_paragraph
          · cases h

theorem processImage_goodLvl {n : Node} {sec : Section}
    (h : processImage n = some sec) : GoodLvl sec := by
  unfold processImage at h
  split at h
  · cases h
  · split at h
    · rename_i src heq
      by_cases hse : src = ""
      · rw [if_pos hse] at h; cases h
      · rw [if_neg hse] at h
        cases h
        intro ht
        exact absurd ht (by simp [createSection])
    · cases h

theorem processHeading_goodLvl {n : Node} {sec : Section}
    (h : processHeading n = some sec)
    (hHTag : isHeadingTagStr (tagLower (nodeTag n)) = true) : GoodLvl sec := by
  unfold processHeading at h
  simp only [] at h
  by_cases htext : jsTrim (textContent n) = ""
  · rw [if_pos htext] at h; cases h
  · rw [if_neg htext] at h
    cases h
    intro _
    exact headingTagLevel_range hHTag

theorem processElement_goodLvl {n : Node} {secs : List Section}
    (h : processElement n = some secs) : ∀ s ∈ secs, GoodLvl s := by
  unfold processElement at h
  split at h
  · cases h
  · simp only [] at h
    split at h
    · rcases Option.map_eq_some'.mp h with ⟨sec, hsec, rfl⟩
      intro s hs
      rcases List.mem_singleton.mp hs with rfl
      exact processImage_goodLvl hsec
    · split at h
      · rename_i hHTag
        rcases Option.map_eq_some'.mp h with ⟨sec, hsec, rfl⟩
        intro s hs
        rcases List.mem_singleton.mp hs with rfl
        exact processHeading_goodLvl hsec hHTag
      · split at h
        · exact processTextElement_goodLvl h
        · cases h

theorem seg_goodLvl_both :
    (∀ (flag : Bool) (n : Node), ∀ s ∈ segNode flag n, GoodLvl s) ∧
    (∀ (flag : Bool) (l : List Node), ∀ s ∈ segList flag l, GoodLvl s) := by
  refine segNode.mutual_induct
    (fun flag n => ∀ s ∈ segNode flag n, GoodLvl s)
    (fun flag l => ∀ s ∈ segList flag l, GoodLvl s)
    ?_ ?_ ?_ ?_ ?_ ?_ ?_
  · intro flag str s hs
    rw [segNode] at hs
    cases hs
  · intro flag tag attrs children hpm ih s hs
    rw [segNode, if_pos hpm] at hs
    exact ih s hs
  · intro tag attrs children hpm ih s hs
    rw [segNode, if_neg hpm, if_pos rfl] at hs
    exact ih s hs
  · intro flag tag attrs children hpm hflag secs hproc ih s hs
    rw [segNode, if_neg hpm, if_neg hflag, hproc] at hs
    simp only [List.mem_append] at hs
    rcases hs with hs1 | hs2
    · exact processElement_goodLvl hproc s hs1
    · exact ih s hs2
  · intro flag tag attrs children hpm hflag hproc ih s hs
    rw [segNode, if_neg hpm, if_neg hflag, hproc] at hs
    exact ih s hs
  · intro flag s hs
    rw [segList] at hs
    cases hs
  · intro flag n rest ih1 ih2 s hs
    rw [segList] at hs
    rcases List.mem_append.mp hs with hs1 | hs2
    · exact ih1 s hs1
    · exact ih2 s hs2

theorem hyphFixContent_goodLvl {s : Section} (h : GoodLvl s) : GoodLvl (hyphFixContent s) := by
  unfold hyphFixContent
  split
  · intro ht
    exact h ht
  · exact h

theorem mergeHyph_goodLvl :
    ∀ (l : List Section), (∀ s ∈ l, GoodLvl s) → ∀ s ∈ mergeHyphenatedWords l, GoodLvl s := by
  intro l
  induction l using mergeHyphenatedWords.induct with
  | case1 =>
    intro _ s hs
    rw [mergeHyphenatedWords] at hs
    cases hs
  | case2 cur =>
    intro h s hs
    rw [mergeHyphenatedWords] at hs
    rcases List.mem_singleton.mp hs with rfl
    exact hyphFixContent_goodLvl (h cur (List.mem_cons_self _ _))
  | case3 cur next rest2 curF hpair curT nxT hcond ih =>
    intro h s hs
    rw [mergeHyphenatedWords] at hs
    simp only [] at hs
    rw [if_pos hpair, if_pos hcond] at hs
    rcases List.mem_cons.mp hs with rfl | hs2
    · exact goodLvl_paragraph
    · exact ih (fun t ht => h t (List.mem_cons_of_mem _ (List.mem_cons_of_mem _ ht))) s hs2
  | case4 cur next rest2 curF hpair curT nxT hcond ih =>
    intro h s hs
    rw [mergeHyphenatedWords] at hs
    simp only [] at hs
    rw [if_pos hpair, if_neg hcond] at hs
    rcases List.mem_cons.mp hs with rfl | hs2
    · exact hyphFixContent_goodLvl (h cur (List.mem_cons_self _ _))
    · exact ih (fun t ht => h t (List.mem_cons_of_mem _ ht)) s hs2
  | case5 cur next rest2 curF hpair ih =>
    intro h s hs
    rw [mergeHyphenatedWords] at hs
    simp only [] at hs
    rw [if_neg hpair] at hs
    rcases List.mem_cons.mp hs with rfl | hs2
    · exact hyphFixContent_goodLvl (h cur (List.mem_cons_self _ _))
    · exact ih (fun t ht => h t (List.mem_cons_of_mem _ ht)) s hs2

theorem mergeParasOnce_goodLvl :
    ∀ (l : List Section), (∀ s ∈ l, GoodLvl s) → ∀ s ∈ (mergeParasOnce l).1, GoodLvl s := by
  intro l
  induction l using mergeParasOnce.induct with
  | case1 =>
    intro _ s hs
    simp [mergeParasOnce] at hs
  | case2 c =>
    intro h s hs
    simp [mergeParasOnce] at hs
    exact hs ▸ h c (List.mem_cons_self _ _)
  | case3 cur next rest hpair nT hempty ih =>
    intro h s hs
    have hp1 : cur.type = SType.paragraph := hpair.1
    have hp2 : next.type = SType.paragraph := hpair.2
    have he : jsTrim next.content = "" := hempty
    simp only [mergeParasOnce, hp1, hp2, and_self, if_true, he, if_pos] at hs
    rcases List.mem_cons.mp hs with rfl | hs2
    · exact h s (List.mem_cons_self _ _)
    · exact ih (fun t ht => h t (List.mem_cons_of_mem _ ht)) s hs2
  | case4 cur next rest hpair nT hne hm ih =>
    intro h s hs
    have hp1 : cur.type = SType.paragraph := hpair.1
    have hp2 : next.type = SType.paragraph := hpair.2
    have he : ¬(jsTrim next.content = "") := hne
    have hmm : shouldMergeParas (jsTrim cur.content) (jsTrim next.content) = true := hm
    simp only [mergeParasOnce, hp1, hp2, and_self, if_true, he, hmm, if_neg, if_pos,
      ite_true, ite_false] at hs
    rcases List.mem_cons.mp hs with rfl | hs2
    · exact goodLvl_paragraph
    · exact ih (fun t ht => h t (List.mem_cons_of_mem _ (List.mem_cons_of_mem _ ht))) s hs2
  | case5 cur next rest hpair nT hne hm ih =>
    intro h s hs
    have hp1 : cur.type = SType.paragraph := hpair.1
    have hp2 : next.type = SType.paragraph := hpair.2
    have he : ¬(jsTrim next.content = "") := hne
    have hmm : ¬(shouldMergeParas (jsTrim cur.content) (jsTrim next.content) = true) := hm
    simp only [mergeParasOnce, hp1, hp2, and_self, if_true, he, hmm, if_neg, if_pos,
      ite_true, ite_false] at hs
    rcases List.mem_cons.mp hs with rfl | hs2
    · exact h s (List.mem_cons_self _ _)
    · exact ih (fun t ht => h t (List.mem_cons_of_mem _ ht)) s hs2
  | case6 cur next rest hpair ih =>
    intro h s hs
    simp only [mergeParasOnce, hpair, if_neg, ite_false] at hs
    rcases List.mem_cons.mp hs with rfl | hs2
    · exact h s (List.mem_cons_self _ _)
    · exact ih (fun t ht => h t (List.mem_cons_of_mem _ ht)) s hs2

theorem mergeParasLoop_goodLvl (fuel : ℕ) :
    ∀ (l : List Section), (∀ s ∈ l, GoodLvl s) → ∀ s ∈ mergeParasLoop fuel l, GoodLvl s := by
  induction fuel with
  | zero => intro l h; exact h
  | succ n ih =>
    intro l h
    simp only [mergeParasLoop]
    split
    · exact ih _ (mergeParasOnce_goodLvl l h)
    · exact mergeParasOnce_goodLvl l h

theorem mergeHeadings_goodLvl :
    ∀ (l : List Section), (∀ s ∈ l, GoodLvl s) → ∀ s ∈ mergeAdjacentHeadings l, GoodLvl s := by
  intro l
  induction l using mergeAdjacentHeadings.induct with
  | case1 =>
    intro _ s hs
    rw [mergeAdjacentHeadings] at hs
    cases hs
  | case2 c =>
    intro h s hs
    rw [mergeAdjacentHeadings] at hs
    rcases List.mem_singleton.mp hs with rfl
    exact h s (List.mem_cons_self _ _)
  | case3 cur next rest nT lns fL hcond ih =>
    intro h s hs
    rw [mergeAdjacentHeadings, if_pos hcond] at hs
    simp only [] at hs
    rcases List.mem_cons.mp hs with rfl | hs2
    · intro _
      exact h cur (List.mem_cons_self _ _) hcond.1
    · rcases List.mem_append.mp hs2 with hs3 | hs4
      · split at hs3
        · rcases List.mem_singleton.mp hs3 with rfl
          exact goodLvl_paragraph
        · cases hs3
      · exact ih (fun t ht => h t (List.mem_cons_of_mem _ (List.mem_cons_of_mem _ ht))) s hs4
  | case4 cur next rest nT lns fL hncond hcond ih =>
    intro h s hs
    rw [mergeAdjacentHeadings, if_neg hncond, if_pos hcond] at hs
    rcases List.mem_cons.mp hs with rfl | hs2
    · intro _
      exact h cur (List.mem_cons_self _ _) hcond.1
    · exact ih (fun t ht => h t (List.mem_cons_of_mem _ (List.mem_cons_of_mem _ ht))) s hs2
  | case5 cur next rest nT lns fL hncond hncond2 ih =>
    intro h s hs
    rw [mergeAdjacentHeadings, if_neg hncond, if_neg hncond2] at hs
    rcases List.mem_cons.mp hs with rfl | hs2
    · exact h s (List.mem_cons_self _ _)
    · exact ih (fun t ht => h t (List.mem_cons_of_mem _ ht)) s hs2

/-- Claim C10: every heading section produced by the full pipeline —
native heading-tag processing, classifier-based classification,
nested-heading extraction, and the Pass 3 merges — has a level in
1..6, so the renderer's above-6 clamp and its zero-level fallback are
never exercised on pipeline output. -/
theorem C10_heading_level_range (nodes : List Node) :
    ∀ s ∈ parseHTMLIntoBlocks nodes, s.type = SType.heading → 1 ≤ s.level ∧ s.level ≤ 6 := by
  intro s hs
  unfold parseHTMLIntoBlocks at hs
  exact mergeHeadings_goodLvl _
    (mergeParasLoop_goodLvl _ _
      (mergeHyph_goodLvl _ (seg_goodLvl_both.2 false nodes))) s hs

theorem C10_witness :
    createSection SType.heading "Title" 1 ∈
      parseHTMLIntoBlocks [.elem "h1" [] [.text "Title"]] ∧
    (createSection SType.heading "Title" 1).type = SType.heading ∧
    1 ≤ (createSection SType.heading "Title" 1).level ∧
    (createSection SType.heading "Title" 1).level ≤ 6 :=
  ⟨by decide, rfl,
   C10_heading_level_range [.elem "h1" [] [.text "Title"]] _ (by decide) rfl⟩

/-! ## Claim C9 -/

/-- The non-empty invariant: a non-image section has non-empty
trimmed content. -/
def GoodNE (s : Section) : Prop := s.type ≠ SType.image → jsTrim s.content ≠ ""

theorem hasNonWs_dropWhile (cs : List Char) :
    ((cs.dropWhile jsWsChar).any fun c => !jsWsChar c) = (cs.any fun c => !jsWsChar c) := by
  induction cs with
  | nil => rfl
  | cons c rest ih =>
    by_cases hc : jsWsChar c = true
    · simp [List.dropWhile_cons, hc, ih]
    · simp [List.dropWhile_cons, hc]

theorem hasNonWs_trimList (cs : List Char) :
    ((trimList cs).any fun c => !jsWsChar c) = (cs.any fun c => !jsWsChar c) := by
  unfold trimList
  rw [List.any_reverse, hasNonWs_dropWhile, List.any_reverse, hasNonWs_dropWhile]

theorem jsTrim_eq_empty_iff (s : String) :
    jsTrim s = "" ↔ (s.data.any fun c => !jsWsChar c) = false := by
  constructor
  · intro h
    have hd : trimList s.data = [] := congrArg String.data h
    rw [← hasNonWs_trimList, hd]
    rfl
  · intro h
    have hall : ∀ x ∈ s.data, jsWsChar x := by
      intro x hx
      have := List.any_eq_false.mp h x hx
      simpa using this
    have h1 : s.data.dropWhile jsWsChar = [] := List.dropWhile_eq_nil_iff.mpr hall
    show (⟨trimList s.data⟩ : String) = ""
    unfold trimList
    rw [h1]
    rfl

theorem jsTrim_ne_iff (s : String) :
    jsTrim s ≠ "" ↔ (s.data.any fun c => !jsWsChar c) = true := by
  rw [Ne, jsTrim_eq_empty_iff, Bool.not_eq_false]

theorem any_nonWs_jsTrim {s : String} (h : jsTrim s ≠ "") :
    ((jsTrim s).data.any fun c => !jsWsChar c) = true := by
  show ((trimList s.data).any fun c => !jsWsChar c) = true
  rw [hasNonWs_trimList]
  exact (jsTrim_ne_iff s).mp h

theorem goodNE_of_trim {t : String} (h : jsTrim t ≠ "") : jsTrim (jsTrim t) ≠ "" := by
  rw [jsTrim_ne_iff]
  exact any_nonWs_jsTrim h

theorem jsTrim_append_left_ne {a : String} (b : String) (h : jsTrim a ≠ "") :
    jsTrim (a ++ b) ≠ "" := by
  rw [jsTrim_ne_iff] at h ⊢
  rw [String.data_append, List.any_append, h]
  rfl

theorem not_ws_of_wordChar {c : Char} (h : isWordChar c = true) : jsWsChar c = false := by
  rw [Bool.eq_false_iff]
  intro hws
  simp only [isWordChar, isUpperAZ, isLowerAZ, isDigitCh, Bool.or_eq_true, Bool.and_eq_true,
    decide_eq_true_eq, beq_iff_eq] at h
  simp only [jsWsChar, Bool.or_eq_true, Bool.and_eq_true, decide_eq_true_eq, beq_iff_eq] at hws
  omega

theorem hyphMatch_some_spec {cs w : List Char} {lc : Char} {r4 : List Char}
    (h : hyphMatch cs = some (w, lc, r4)) :
    2 ≤ w.length ∧ w = cs.takeWhile isWordChar := by
  unfold hyphMatch at h
  split at h
  · rename_i hw
    split at h
    · split at h
      · split at h
        · cases h
          exact ⟨hw, rfl⟩
        · cases h
      · cases h
    · cases h
  · cases h

theorem fixHyphGo_hasNonWs :
    ∀ (fuel : ℕ) (cs : List Char), (cs.any fun c => !jsWsChar c) = true →
      ((fixHyphGo fuel cs).any fun c => !jsWsChar c) = true := by
  intro fuel
  induction fuel with
  | zero =>
    intro cs h
    cases cs with
    | nil => simp at h
    | cons c rest => simp only [fixHyphGo]; exact h
  | succ n ih =>
    intro cs h
    cases cs with
    | nil => exact h
    | cons c rest =>
      cases hm : hyphMatch (c :: rest) with
      | some x =>
        obtain ⟨w, lc, r4⟩ := x
        have hspec := hyphMatch_some_spec hm
        simp only [fixHyphGo, hm, List.any_append]
        have hw : (w.any fun c => !jsWsChar c) = true := by
          cases hww : w with
          | nil => rw [hww] at hspec; simp at hspec
          | cons a as =>
            have ha : isWordChar a = true := by
              apply List.mem_takeWhile_imp (l := c :: rest) (p := isWordChar)
              rw [← hspec.2, hww]
              exact List.mem_cons_self _ _
            simp [List.any_cons, not_ws_of_wordChar ha]
        simp [hw]
      | none =>
        simp only [fixHyphGo, hm]
        cases hc : (!jsWsChar c) with
        | true => simp [List.any_cons, hc]
        | false =>
          simp only [List.any_cons, hc, Bool.false_or] at h ⊢
          exact ih rest h

theorem fixHyph_preserves_ne {t : String} (h : jsTrim t ≠ "") :
    jsTrim (fixHyphenatedWords t) ≠ "" := by
  rw [jsTrim_ne_iff] at h ⊢
  exact fixHyphGo_hasNonWs _ _ h

theorem goodNE_trimmed {ty : SType} {X : String} (h : jsTrim X ≠ "") (lvl : Int)
    (imgs : List Image) : GoodNE (createSection ty (jsTrim X) lvl imgs) :=
  fun _ => goodNE_of_trim h

theorem processImage_goodNE {n : Node} {sec : Section}
    (h : processImage n = some sec) : GoodNE sec := by
  unfold processImage at h
  split at h
  · cases h
  · split at h
    · rename_i src heq
      by_cases hse : src = ""
      · rw [if_pos hse] at h; cases h
      · rw [if_neg hse] at h
        cases h
        intro ht
        exact absurd (show (createSection SType.image "" 0 [⟨src⟩]).type = SType.image from rfl) ht
    · cases h

theorem processHeading_goodNE {n : Node} {sec : Section}
    (h : processHeading n = some sec) : GoodNE sec := by
  unfold processHeading at h
  simp only [] at h
  by_cases htext : jsTrim (textContent n) = ""
  · rw [if_pos htext] at h; cases h
  · rw [if_neg htext] at h
    cases h
    exact goodNE_trimmed htext _ _

theorem extractNestedHeading_goodNE {n : Node} {hd : Section} {rem : String}
    (h : extractNestedHeading n = some (hd, rem)) :
    GoodNE hd ∧ ∃ X : String, rem = jsTrim X := by
  unfold extractNestedHeading at h
  split at h
  · cases h
  · split at h
    · cases h
    · simp only [] at h
      split at h
      · cases h
      · rename_i htext
        split at h
        · cases h
        · cases h
          exact ⟨goodNE_trimmed htext _ _, _, rfl⟩

theorem processTextElement_goodNE {n : Node} {t : String} {secs : List Section}
    (h : processTextElement n t = some secs) : ∀ s ∈ secs, GoodNE s := by
  unfold processTextElement at h
  by_cases htext : jsTrim (textContent n) = ""
  · rw [if_pos htext] at h; cases h
  · rw [if_neg htext] at h
    simp only [] at h
    cases hnest : (if t = "p" ∨ t = "div" then extractNestedHeading n else none) with
    | some pr =>
      obtain ⟨hd, rem⟩ := pr
      have hnested : extractNestedHeading n = some (hd, rem) := by
        by_cases hpd : t = "p" ∨ t = "div"
        · rwa [if_pos hpd] at hnest
        · rw [if_neg hpd] at hnest; cases hnest
      rw [hnest] at h
      simp only [] at h
      cases h
      intro s hs
      rcases List.mem_cons.mp hs with rfl | hs2
      · exact (extractNestedHeading_goodNE hnested).1
      · split at hs2
        · rename_i hrem
          rcases List.mem_singleton.mp hs2 with rfl
          obtain ⟨X, hX⟩ := (extractNestedHeading_goodNE hnested).2
          intro _
          rw [hX] at hrem ⊢
          exact goodNE_of_trim hrem
        · cases hs2
    | none =>
      rw [hnest] at h
      simp only [] at h
      split at h
      · cases h
        intro s hs
        rcases List.mem_singleton.mp hs with rfl
        exact goodNE_trimmed htext _ _
      · split at h
        · cases h
          intro s hs
          rcases List.mem_singleton.mp hs with rfl
          exact goodNE_trimmed htext _ _
        · split at h
          · cases h
            intro s hs
            rcases List.mem_singleton.mp hs with rfl
            exact goodNE_trimmed htext _ _
          · cases h

theorem processElement_goodNE {n : Node} {secs : List Section}
    (h : processElement n = some secs) : ∀ s ∈ secs, GoodNE s := by
  unfold processElement at h
  split at h
  · cases h
  · simp only [] at h
    split at h
    · rcases Option.map_eq_some'.mp h with ⟨sec, hsec, rfl⟩
      intro s hs
      rcases List.mem_singleton.mp hs with rfl
      exact processImage_goodNE hsec
    · split at h
      · rcases Option.map_eq_some'.mp h with ⟨sec, hsec, rfl⟩
        intro s hs
        rcases List.mem_singleton.mp hs with rfl
        exact processHeading_goodNE hsec
      · split at h
        · exact processTextElement_goodNE h
        · cases h

theorem seg_goodNE_both :
    (∀ (flag : Bool) (n : Node), ∀ s ∈ segNode flag n, GoodNE s) ∧
    (∀ (flag : Bool) (l : List Node), ∀ s ∈ segList flag l, GoodNE s) := by
  refine segNode.mutual_induct
    (fun flag n => ∀ s ∈ segNode flag n, GoodNE s)
    (fun flag l => ∀ s ∈ segList flag l, GoodNE s)
    ?_ ?_ ?_ ?_ ?_ ?_ ?_
  · intro flag str s hs
    rw [segNode] at hs
    cases hs
  · intro flag tag attrs children hpm ih s hs
    rw [segNode, if_pos hpm] at hs
    exact ih s hs
  · intro tag attrs children hpm ih s hs
    rw [segNode, if_neg hpm, if_pos rfl] at hs
    exact ih s hs
  · intro flag tag attrs children hpm hflag secs hproc ih s hs
    rw [segNode, if_neg hpm, if_neg hflag, hproc] at hs
    simp only [List.mem_append] at hs
    rcases hs with hs1 | hs2
    · exact processElement_goodNE hproc s hs1
    · exact ih s hs2
  · intro flag tag attrs children hpm hflag hproc ih s hs
    rw [segNode, if_neg hpm, if_neg hflag, hproc] at hs
    exact ih s hs
  · intro flag s hs
    rw [segList] at hs
    cases hs
  · intro flag n rest ih1 ih2 s hs
    rw [segList] at hs
    rcases List.mem_append.mp hs with hs1 | hs2
    · exact ih1 s hs1
    · exact ih2 s hs2

theorem hyphFixContent_goodNE {s : Section} (h : GoodNE s) : GoodNE (hyphFixContent s) := by
  unfold hyphFixContent
  split
  · intro ht
    exact fixHyph_preserves_ne (h ht)
  · exact h

theorem mergeHyph_goodNE :
    ∀ (l : List Section), (∀ s ∈ l, GoodNE s) → ∀ s ∈ mergeHyphenatedWords l, GoodNE s := by
  intro l
  induction l using mergeHyphenatedWords.induct with
  | case1 =>
    intro _ s hs
    rw [mergeHyphenatedWords] at hs
    cases hs
  | case2 cur =>
    intro h s hs
    rw [mergeHyphenatedWords] at hs
    rcases List.mem_singleton.mp hs with rfl
    exact hyphFixContent_goodNE (h cur (List.mem_cons_self _ _))
  | case3 cur next rest2 curF hpair curT nxT hcond ih =>
    intro h s hs
    rw [mergeHyphenatedWords] at hs
    simp only [] at hs
    rw [if_pos hpair, if_pos hcond] at hs
    rcases List.mem_cons.mp hs with rfl | hs2
    · intro _
      have hne : jsTrim next.content ≠ "" := by
        have h2 : decide (jsTrim next.content ≠ "") = true := by
          have := hcond
          simp only [Bool.and_eq_true] at this
          exact this.1.2
        simpa using h2
      have hany : ((jsTrim next.content).data.any fun c => !jsWsChar c) = true :=
        any_nonWs_jsTrim hne
      rw [jsTrim_ne_iff]
      apply fixHyphGo_hasNonWs
      rw [String.data_append, List.any_append, hany]
      simp
    · exact ih (fun t ht => h t (List.mem_cons_of_mem _ (List.mem_cons_of_mem _ ht))) s hs2
  | case4 cur next rest2 curF hpair curT nxT hcond ih =>
    intro h s hs
    rw [mergeHyphenatedWords] at hs
    simp only [] at hs
    rw [if_pos hpair, if_neg hcond] at hs
    rcases List.mem_cons.mp hs with rfl | hs2
    · exact hyphFixContent_goodNE (h cur (List.mem_cons_self _ _))
    · exact ih (fun t ht => h t (List.mem_cons_of_mem _ ht)) s hs2
  | case5 cur next rest2 curF hpair ih =>
    intro h s hs
    rw [mergeHyphenatedWords] at hs
    simp only [] at hs
    rw [if_neg hpair] at hs
    rcases List.mem_cons.mp hs with rfl | hs2
    · exact hyphFixContent_goodNE (h cur (List.mem_cons_self _ _))
    · exact ih (fun t ht => h t (List.mem_cons_of_mem _ ht)) s hs2

theorem mergeParasOnce_goodNE :
    ∀ (l : List Section), (∀ s ∈ l, GoodNE s) → ∀ s ∈ (mergeParasOnce l).1, GoodNE s := by
  intro l
  induction l using mergeParasOnce.induct with
  | case1 =>
    intro _ s hs
    simp [mergeParasOnce] at hs
  | case2 c =>
    intro h s hs
    simp [mergeParasOnce] at hs
    exact hs ▸ h c (List.mem_cons_self _ _)
  | case3 cur next rest hpair nT hempty ih =>
    intro h s hs
    have hp1 : cur.type = SType.paragraph := hpair.1
    have hp2 : next.type = SType.paragraph := hpair.2
    have he : jsTrim next.content = "" := hempty
    simp only [mergeParasOnce, hp1, hp2, and_self, if_true, he, if_pos] at hs
    rcases List.mem_cons.mp hs with rfl | hs2
    · exact h s (List.mem_cons_self _ _)
    · exact ih (fun t ht => h t (List.mem_cons_of_mem _ ht)) s hs2
  | case4 cur next rest hpair nT hne hm ih =>
    intro h s hs
    have hp1 : cur.type = SType.paragraph := hpair.1
    have hp2 : next.type = SType.paragraph := hpair.2
    have he : ¬(jsTrim next.content = "") := hne
    have hmm : shouldMergeParas (jsTrim cur.content) (jsTrim next.content) = true := hm
    simp only [mergeParasOnce, hp1, hp2, and_self, if_true, he, hmm, if_neg, if_pos,
      ite_true, ite_false] at hs
    rcases List.mem_cons.mp hs with rfl | hs2
    · intro _
      have hcur : jsTrim cur.content ≠ "" :=
        h cur (List.mem_cons_self _ _) (by rw [hp1]; simp)
      exact jsTrim_append_left_ne _ (jsTrim_append_left_ne _ hcur)
    · exact ih (fun t ht => h t (List.mem_cons_of_mem _ (List.mem_cons_of_mem _ ht))) s hs2
  | case5 cur next rest hpair nT hne hm ih =>
    intro h s hs
    have hp1 : cur.type = SType.paragraph := hpair.1
    have hp2 : next.type = SType.paragraph := hpair.2
    have he : ¬(jsTrim next.content = "") := hne
    have hmm : ¬(shouldMergeParas (jsTrim cur.content) (jsTrim next.content) = true) := hm
    simp only [mergeParasOnce, hp1, hp2, and_self, if_true, he, hmm, if_neg, if_pos,
      ite_true, ite_false] at hs
    rcases List.mem_cons.mp hs with rfl | hs2
    · exact h s (List.mem_cons_self _ _)
    · exact ih (fun t ht => h t (List.mem_cons_of_mem _ ht)) s hs2
  | case6 cur next rest hpair ih =>
    intro h s hs
    simp only [mergeParasOnce, hpair, if_neg, ite_false] at hs
    rcases List.mem_cons.mp hs with rfl | hs2
    · exact h s (List.mem_cons_self _ _)
    · exact ih (fun t ht => h t (List.mem_cons_of_mem _ ht)) s hs2

theorem mergeParasLoop_goodNE (fuel : ℕ) :
    ∀ (l : List Section), (∀ s ∈ l, GoodNE s) → ∀ s ∈ mergeParasLoop fuel l, GoodNE s := by
  induction fuel with
  | zero => intro l h; exact h
  | succ n ih =>
    intro l h
    simp only [mergeParasLoop]
    split
    · exact ih _ (mergeParasOnce_goodNE l h)
    · exact mergeParasOnce_goodNE l h

theorem mergeHeadings_goodNE :
    ∀ (l : List Section), (∀ s ∈ l, GoodNE s) → ∀ s ∈ mergeAdjacentHeadings l, GoodNE s := by
  intro l
  induction l using mergeAdjacentHeadings.induct with
  | case1 =>
    intro _ s hs
    rw [mergeAdjacentHeadings] at hs
    cases hs
  | case2 c =>
    intro h s hs
    rw [mergeAdjacentHeadings] at hs
    rcases List.mem_singleton.mp hs with rfl
    exact h s (List.mem_cons_self _ _)
  | case3 cur next rest nT lns fL hcond ih =>
    intro h s hs
    rw [mergeAdjacentHeadings, if_pos hcond] at hs
    simp only [] at hs
    rcases List.mem_cons.mp hs with rfl | hs2
    · intro _
      have hcur : jsTrim cur.content ≠ "" :=
        h cur (List.mem_cons_self _ _) (by rw [hcond.1]; simp)
      exact jsTrim_append_left_ne _ (jsTrim_append_left_ne _ hcur)
    · rcases List.mem_append.mp hs2 with hs3 | hs4
      · split at hs3
        · rename_i hrem
          rcases List.mem_singleton.mp hs3 with rfl
          intro _
          exact goodNE_of_trim hrem
        · cases hs3
      · exact ih (fun t ht => h t (List.mem_cons_of_mem _ (List.mem_cons_of_mem _ ht))) s hs4
  | case4 cur next rest nT lns fL hncond hcond ih =>
    intro h s hs
    rw [mergeAdjacentHeadings, if_neg hncond, if_pos hcond] at hs
    rcases List.mem_cons.mp hs with rfl | hs2
    · intro _
      have hcur : jsTrim cur.content ≠ "" :=
        h cur (List.mem_cons_self _ _) (by rw [hcond.1]; simp)
      exact jsTrim_append_left_ne _ (jsTrim_append_left_ne _ hcur)
    · exact ih (fun t ht => h t (List.mem_cons_of_mem _ (List.mem_cons_of_mem _ ht))) s hs2
  | case5 cur next rest nT lns fL hncond hncond2 ih =>
    intro h s hs
    rw [mergeAdjacentHeadings, if_neg hncond, if_neg hncond2] at hs
    rcases List.mem_cons.mp hs with rfl | hs2
    · exact h s (List.mem_cons_self _ _)
    · exact ih (fun t ht => h t (List.mem_cons_of_mem _ ht)) s hs2

/-- Claim C9: in the section sequence produced by
`parseHTMLIntoBlocks` after all three merge passes, every section
whose type is not `image` has non-empty trimmed content. -/
theorem C9_nonempty_sections (nodes : List Node) :
    ∀ s ∈ parseHTMLIntoBlocks nodes, s.type ≠ SType.image → jsTrim s.content ≠ "" := by
  intro s hs
  unfold parseHTMLIntoBlocks at hs
  exact mergeHeadings_goodNE _
    (mergeParasLoop_goodNE _ _
      (mergeHyph_goodNE _ (seg_goodNE_both.2 false nodes))) s hs

theorem C9_witness :
    createSection SType.paragraph "hi" ∈ parseHTMLIntoBlocks [.elem "p" [] [.text " hi "]] ∧
    (createSection SType.paragraph "hi").type ≠ SType.image ∧
    jsTrim (createSection SType.paragraph "hi").content ≠ "" :=
  ⟨by decide, by decide,
   C9_nonempty_sections [.elem "p" [] [.text " hi "]] _ (by decide) (by decide)⟩

/-! ## Claim C8 -/

/-- Whether the two-character sequence `c1 c2` occurs (adjacently)
somewhere in the list. -/
def hasSeq2 (c1 c2 : Char) : List Char → Bool
  | [] => false
  | [_] => false
  | x :: y :: rest => (x == c1 && y == c2) || hasSeq2 c1 c2 (y :: rest)

theorem hasSeq2_cons_of {c1 c2 x : Char} {l : List Char}
    (h : hasSeq2 c1 c2 l = true) : hasSeq2 c1 c2 (x :: l) = true := by
  cases l with
  | nil => cases h
  | cons y rest =>
    cases rest with
    | nil => cases h
    | cons z r =>
      rw [hasSeq2]
      rw [h]
      simp

theorem hasSeq2_of_decomp (c1 c2 : Char) :
    ∀ (pre post : List Char), hasSeq2 c1 c2 (pre ++ c1 :: c2 :: post) = true := by
  intro pre post
  induction pre with
  | nil => simp [hasSeq2]
  | cons x pre' ih => exact hasSeq2_cons_of ih

theorem hasSeq2_false_of_no_lt {c1 c2 : Char} :
    ∀ {cs : List Char}, c1 ∉ cs → hasSeq2 c1 c2 cs = false := by
  intro cs
  induction cs with
  | nil => intro _; rfl
  | cons x rest ih =>
    intro h
    cases rest with
    | nil => rfl
    | cons y r =>
      rw [hasSeq2]
      have hx : (x == c1) = false := by
        simp only [beq_eq_false_iff_ne, ne_eq]
        intro hxe
        exact h (hxe ▸ List.mem_cons_self _ _)
      rw [hx]
      simp only [Bool.false_and, Bool.false_or]
      exact ih (fun hm => h (List.mem_cons_of_mem _ hm))

theorem getLast?_not_lt {c1 : Char} {cs : List Char} (h : c1 ∉ cs) :
    (cs.getLast? == some c1) = false := by
  cases hl : cs.getLast? with
  | none => rfl
  | some d =>
    have := List.mem_of_mem_getLast? hl
    by_cases hd : d = c1
    · exact absurd (hd ▸ this) h
    · simp [hd]

theorem hasSeq2_append (c1 c2 : Char) (a b : List Char) :
    hasSeq2 c1 c2 (a ++ b) =
      (hasSeq2 c1 c2 a || hasSeq2 c1 c2 b ||
        (a.getLast? == some c1 && b.head? == some c2)) := by
  induction a with
  | nil => simp [hasSeq2]
  | cons x a' ih =>
    cases a' with
    | nil =>
      cases b with
      | nil => simp [hasSeq2]
      | cons y bs =>
        simp only [List.nil_append, List.cons_append, hasSeq2, List.getLast?_singleton,
          List.head?_cons]
        cases hxy : (x == c1 && y == c2) <;> simp [hasSeq2, hxy]
    | cons y a'' =>
      simp only [List.cons_append] at ih ⊢
      rw [hasSeq2, ih, hasSeq2]
      rw [List.getLast?_cons_cons]
      cases hxy : (x == c1 && y == c2) <;> simp

/-- The predicate driving the `<script>`-freeness argument: the list
contains no adjacent `<` `s` pair and does not end in `<`. It is
closed under concatenation. -/
def CleanLt (cs : List Char) : Prop :=
  hasSeq2 '<' 's' cs = false ∧ (cs.getLast? == some '<') = false

theorem cleanLt_nil : CleanLt [] := ⟨rfl, rfl⟩

theorem cleanLt_of_no_lt {cs : List Char} (h : ('<' : Char) ∉ cs) : CleanLt cs :=
  ⟨hasSeq2_false_of_no_lt h, getLast?_not_lt h⟩

theorem cleanLt_append {a b : List Char} (ha : CleanLt a) (hb : CleanLt b) :
    CleanLt (a ++ b) := by
  constructor
  · rw [hasSeq2_append, ha.1, hb.1, ha.2]
    rfl
  · cases hbn : b with
    | nil => rw [List.append_nil]; exact ha.2
    | cons y bs =>
      rw [List.getLast?_append_cons]
      rw [← hbn]
      exact hb.2

theorem cleanLt_lt_cons {rest : List Char} (h1 : rest.head? ≠ some 's')
    (h2 : ('<' : Char) ∉ rest) (h3 : rest ≠ []) : CleanLt ('<' :: rest) := by
  cases rest with
  | nil => exact absurd rfl h3
  | cons r rs =>
    constructor
    · rw [hasSeq2]
      have hr : (r == 's') = false := by
        simp only [beq_eq_false_iff_ne, ne_eq]
        intro hre
        exact h1 (by rw [hre]; rfl)
      rw [hr]
      simp only [Bool.and_false, beq_self_eq_true, Bool.true_and, Bool.and_comm]
      rw [hasSeq2_false_of_no_lt h2]
      simp [hr]
    · rw [List.getLast?_cons_cons]
      exact getLast?_not_lt h2

theorem escapeChar_no_angle (c : Char) : ∀ x ∈ escapeChar c, x ≠ '<' ∧ x ≠ '>' := by
  intro x hx
  unfold escapeChar at hx
  split at hx
  · have hd : "&amp;".data = ['&', 'a', 'm', 'p', ';'] := rfl
    rw [hd] at hx
    fin_cases hx <;> exact ⟨by decide, by decide⟩
  · split at hx
    · have hd : "&lt;".data = ['&', 'l', 't', ';'] := rfl
      rw [hd] at hx
      fin_cases hx <;> exact ⟨by decide, by decide⟩
    · split at hx
      · have hd : "&gt;".data = ['&', 'g', 't', ';'] := rfl
        rw [hd] at hx
        fin_cases hx <;> exact ⟨by decide, by decide⟩
      · split at hx
        · have hd : "&nbsp;".data = ['&', 'n', 'b', 's', 'p', ';'] := rfl
          rw [hd] at hx
          fin_cases hx <;> exact ⟨by decide, by decide⟩
        · rename_i h1 h2 h3 h4
          rcases List.mem_singleton.mp hx with rfl
          exact ⟨h2, h3⟩

theorem escapeHtml_no_angle (t : String) :
    ('<' : Char) ∉ (escapeHtml t).data ∧ ('>' : Char) ∉ (escapeHtml t).data := by
  constructor <;>
  · intro hmem
    have hm : _ ∈ (t.data.map escapeChar).flatten := hmem
    rw [List.mem_flatten] at hm
    obtain ⟨piece, hpiece, hin⟩ := hm
    rw [List.mem_map] at hpiece
    obtain ⟨c, _, rfl⟩ := hpiece
    have := escapeChar_no_angle c _ hin
    simp at this

set_option maxHeartbeats 1000000 in
theorem digitChar_ok (m : ℕ) : Nat.digitChar m ≠ '<' ∧ Nat.digitChar m ≠ 's' := by
  rcases Nat.lt_or_ge m 16 with h | h
  · interval_cases m <;> decide
  · unfold Nat.digitChar
    iterate 16 rw [if_neg (by omega)]
    decide

theorem toDigitsCore_ok (b : ℕ) :
    ∀ (fuel n : ℕ) (ds : List Char), (∀ x ∈ ds, x ≠ '<' ∧ x ≠ 's') →
      ∀ x ∈ Nat.toDigitsCore b fuel n ds, x ≠ '<' ∧ x ≠ 's' := by
  intro fuel
  induction fuel with
  | zero =>
    intro n ds h
    unfold Nat.toDigitsCore
    exact h
  | succ f ih =>
    intro n ds h
    unfold Nat.toDigitsCore
    have hd : ∀ x ∈ (Nat.digitChar (n % b) :: ds), x ≠ '<' ∧ x ≠ 's' := by
      intro x hx
      rcases List.mem_cons.mp hx with rfl | hx2
      · exact digitChar_ok _
      · exact h x hx2
    simp only []
    split
    · exact hd
    · exact ih _ _ hd

theorem natRepr_ok (n : ℕ) : ∀ x ∈ (Nat.repr n).data, x ≠ '<' ∧ x ≠ 's' := by
  intro x hx
  exact toDigitsCore_ok 10 (n + 1) n [] (by intro y hy; cases hy) x hx

theorem intRepr_ok (i : Int) : ∀ x ∈ (Int.repr i).data, x ≠ '<' ∧ x ≠ 's' := by
  cases i with
  | ofNat m => exact natRepr_ok m
  | negSucc m =>
    intro x hx
    have hd : (Int.repr (Int.negSucc m)).data = '-' :: (Nat.repr (m + 1)).data := rfl
    rw [hd] at hx
    rcases List.mem_cons.mp hx with rfl | hx2
    · exact ⟨by decide, by decide⟩
    · exact natRepr_ok _ x hx2

theorem cleanLt_not_mem_of_ok {cs : List Char} (h : ∀ x ∈ cs, x ≠ '<' ∧ x ≠ 's') :
    ('<' : Char) ∉ cs := fun hm => (h _ hm).1 rfl

theorem renderImages_fold_cleanLt :
    ∀ (images : List Image) (acc : String),
      (∀ img ∈ images, ('<' : Char) ∉ img.src.data) → CleanLt acc.data →
      CleanLt ((images.foldl
        (fun a img =>
          if img.src ≠ "" then a ++ "<img src=\"" ++ img.src ++ "\" alt=\"\" />" else a)
        acc)).data := by
  intro images
  induction images with
  | nil => intro acc _ hacc; exact hacc
  | cons img rest ih =>
    intro acc h hacc
    rw [List.foldl_cons]
    apply ih _ (fun i hi => h i (List.mem_cons_of_mem _ hi))
    split
    · rw [String.data_append, String.data_append, String.data_append]
      apply cleanLt_append
      apply cleanLt_append
      apply cleanLt_append hacc
      · exact ⟨by decide, by decide⟩
      · exact cleanLt_of_no_lt (h img (List.mem_cons_self _ _))
      · exact ⟨by decide, by decide⟩
    · exact hacc

theorem renderImages_cleanLt (images : List Image)
    (h : ∀ img ∈ images, ('<' : Char) ∉ img.src.data) :
    CleanLt (renderImages images).data := by
  unfold renderImages
  exact renderImages_fold_cleanLt images "" h cleanLt_nil

theorem tag_data_no_lt (L : Int) : ('<' : Char) ∉ ("h" ++ L.repr).data := by
  rw [String.data_append]
  intro hm
  rcases List.mem_append.mp hm with h1 | h2
  · exact absurd h1 (by decide)
  · exact (intRepr_ok L _ h2).1 rfl

theorem renderSection_cleanLt (s : Section)
    (h : ∀ img ∈ s.images, ('<' : Char) ∉ img.src.data) :
    CleanLt (renderSection s).data := by
  unfold renderSection
  split
  · exact cleanLt_nil
  · split
    · simp only []
      rw [String.data_append, String.data_append, String.data_append, String.data_append,
        String.data_append, String.data_append]
      apply cleanLt_append
      apply cleanLt_append
      apply cleanLt_append
      apply cleanLt_append
      apply cleanLt_append
      · -- "<" ++ ("h" ++ repr)
        show CleanLt ('<' :: ("h" ++ _).data)
        apply cleanLt_lt_cons
        · rw [String.data_append]
          simp
        · exact tag_data_no_lt _
        · rw [String.data_append]
          simp
      · exact ⟨by decide, by decide⟩
      · exact cleanLt_of_no_lt (escapeHtml_no_angle s.content).1
      · exact ⟨by decide, by decide⟩
      · exact cleanLt_of_no_lt (tag_data_no_lt _)
      · exact ⟨by decide, by decide⟩
    · split
      · exact renderImages_cleanLt s.images h
      · split
        · rw [String.data_append, String.data_append, String.data_append]
          apply cleanLt_append
          apply cleanLt_append
          · show CleanLt ('<' :: 'p' :: '>' :: (escapeHtml s.content).data)
            apply cleanLt_lt_cons
            · simp
            · intro hm
              rcases List.mem_cons.mp hm with h1 | h2
              · cases h1
              · rcases List.mem_cons.mp h2 with h3 | h4
                · cases h3
                · exact (escapeHtml_no_angle s.content).1 h4
            · simp
          · exact ⟨by decide, by decide⟩
          · exact renderImages_cleanLt s.images h
        · exact cleanLt_nil

theorem cleanLt_join :
    ∀ (l : List String) (acc : String), CleanLt acc.data → (∀ s ∈ l, CleanLt s.data) →
      CleanLt ((l.foldl (fun r s => r ++ s) acc)).data := by
  intro l
  induction l with
  | nil => intro acc hacc _; exact hacc
  | cons s rest ih =>
    intro acc hacc h
    rw [List.foldl_cons]
    apply ih
    · rw [String.data_append]
      exact cleanLt_append hacc (h s (List.mem_cons_self _ _))
    · exact fun t ht => h t (List.mem_cons_of_mem _ ht)

theorem renderSections_cleanLt (sections : List Section)
    (h : ∀ s ∈ sections, ∀ img ∈ s.images, ('<' : Char) ∉ img.src.data) :
    CleanLt (renderSections sections).data := by
  unfold renderSections String.join
  apply cleanLt_join _ _ cleanLt_nil
  intro t ht
  rw [List.mem_map] at ht
  obtain ⟨sec, hsec, rfl⟩ := ht
  exact renderSection_cleanLt sec (h sec hsec)

/-- Claim C8: section content text is always HTML-escaped before
insertion — escaped text contains no raw `<` or `>` — and, provided
image `src` attributes (the only renderer inputs that are not section
content text) contain no `<`, the rendered markup never contains a raw
`<script>` tag. -/
theorem C8_sanitization (sections : List Section)
    (h : ∀ s ∈ sections, ∀ img ∈ s.images, ('<' : Char) ∉ img.src.data) :
    (¬ ∃ pre post : List Char,
        (renderSections sections).data = pre ++ "<script>".data ++ post) ∧
    ∀ t : String, ('<' : Char) ∉ (escapeHtml t).data ∧ ('>' : Char) ∉ (escapeHtml t).data := by
  constructor
  · rintro ⟨pre, post, heq⟩
    have hclean := renderSections_cleanLt sections h
    have hseq : hasSeq2 '<' 's' (renderSections sections).data = true := by
      rw [heq]
      have hscr : "<script>".data = '<' :: 's' :: "cript>".data := rfl
      rw [hscr, List.append_assoc, List.cons_append, List.cons_append]
      exact hasSeq2_of_decomp '<' 's' pre ("cript>".data ++ post)
    rw [hclean.1] at hseq
    cases hseq
  · exact escapeHtml_no_angle

theorem C8_witness :
    (∀ s ∈ [createSection SType.paragraph "<script>x</script>"],
      ∀ img ∈ s.images, ('<' : Char) ∉ img.src.data) ∧
    (¬ ∃ pre post : List Char,
        (renderSections [createSection SType.paragraph "<script>x</script>"]).data =
          pre ++ "<script>".data ++ post) ∧
    (('<' : Char) ∉ (escapeHtml "<b>").data ∧ ('>' : Char) ∉ (escapeHtml "<b>").data) :=
  ⟨by decide,
   (C8_sanitization [createSection SType.paragraph "<script>x</script>"] (by decide)).1,
   (C8_sanitization [createSection SType.paragraph "<script>x</script>"] (by decide)).2 "<b>"⟩

/-! ## Fuel adequacy

The two fuelled recursions (`fixHyphGo`, `mergeParasLoop`) faithfully
implement the unbounded scans of the source: `fixHyphGo` is
fuel-irrelevant once the fuel covers the input length, and
`mergeParasLoop` with `length + 1` fuel reaches the `while (changed)`
fixed point (a further scan reports no change). -/

theorem fixHyphGo_fuel_irrel :
    ∀ (fuel fuel' : ℕ) (cs : List Char), cs.length ≤ fuel → cs.length ≤ fuel' →
      fixHyphGo fuel cs = fixHyphGo fuel' cs := by
  intro fuel
  induction fuel with
  | zero =>
    intro fuel' cs h _
    have : cs = [] := List.eq_nil_of_length_eq_zero (Nat.le_zero.mp h)
    subst this
    cases fuel' <;> rfl
  | succ n ih =>
    intro fuel' cs h h'
    cases cs with
    | nil => cases fuel' <;> rfl
    | cons c rest =>
      cases fuel' with
      | zero => simp at h'
      | succ m =>
        cases hm : hyphMatch (c :: rest) with
        | some x =>
          obtain ⟨w, lc, r4⟩ := x
          have hlen := hyphMatch_some_length hm
          simp only [List.length_cons] at h h' hlen
          simp only [fixHyphGo, hm]
          rw [ih m r4 (by omega) (by omega)]
        | none =>
          simp only [List.length_cons] at h h'
          simp only [fixHyphGo, hm]
          rw [ih m rest (by omega) (by omega)]

theorem mergeParasOnce_snd_false {l : List Section}
    (h : (mergeParasOnce l).2 = false) : (mergeParasOnce l).1 = l := by
  induction l using mergeParasOnce.induct with
  | case1 => rfl
  | case2 c => rfl
  | case3 cur next rest hpair nT hempty ih =>
    have hp1 : cur.type = SType.paragraph := hpair.1
    have hp2 : next.type = SType.paragraph := hpair.2
    have he : jsTrim next.content = "" := hempty
    simp [mergeParasOnce, hp1, hp2, he] at h ⊢
    exact ih h
  | case4 cur next rest hpair nT hne hm ih =>
    have hp1 : cur.type = SType.paragraph := hpair.1
    have hp2 : next.type = SType.paragraph := hpair.2
    have he : ¬(jsTrim next.content = "") := hne
    have hmm : shouldMergeParas (jsTrim cur.content) (jsTrim next.content) = true := hm
    simp [mergeParasOnce, hp1, hp2, he, hmm] at h
  | case5 cur next rest hpair nT hne hm ih =>
    have hp1 : cur.type = SType.paragraph := hpair.1
    have hp2 : next.type = SType.paragraph := hpair.2
    have he : ¬(jsTrim next.content = "") := hne
    have hmm : ¬(shouldMergeParas (jsTrim cur.content) (jsTrim next.content) = true) := hm
    simp [mergeParasOnce, hp1, hp2, he, hmm] at h ⊢
    exact ih h
  | case6 cur next rest hpair ih =>
    simp [mergeParasOnce, hpair] at h ⊢
    exact ih h

theorem mergeParasOnce_snd_true {l : List Section}
    (h : (mergeParasOnce l).2 = true) : (mergeParasOnce l).1.length < l.length := by
  induction l using mergeParasOnce.induct with
  | case1 => cases h
  | case2 c => cases h
  | case3 cur next rest hpair nT hempty ih =>
    have hp1 : cur.type = SType.paragraph := hpair.1
    have hp2 : next.type = SType.paragraph := hpair.2
    have he : jsTrim next.content = "" := hempty
    simp [mergeParasOnce, hp1, hp2, he] at h ⊢
    have := ih h
    simp only [List.length_cons] at this ⊢
    omega
  | case4 cur next rest hpair nT hne hm ih =>
    have hp1 : cur.type = SType.paragraph := hpair.1
    have hp2 : next.type = SType.paragraph := hpair.2
    have he : ¬(jsTrim next.content = "") := hne
    have hmm : shouldMergeParas (jsTrim cur.content) (jsTrim next.content) = true := hm
    simp [mergeParasOnce, hp1, hp2, he, hmm]
    have := mergeParasOnce_length rest
    omega
  | case5 cur next rest hpair nT hne hm ih =>
    have hp1 : cur.type = SType.paragraph := hpair.1
    have hp2 : next.type = SType.paragraph := hpair.2
    have he : ¬(jsTrim next.content = "") := hne
    have hmm : ¬(shouldMergeParas (jsTrim cur.content) (jsTrim next.content) = true) := hm
    simp [mergeParasOnce, hp1, hp2, he, hmm] at h ⊢
    have := ih h
    simp only [List.length_cons] at this ⊢
    omega
  | case6 cur next rest hpair ih =>
    simp [mergeParasOnce, hpair] at h ⊢
    have := ih h
    simp only [List.length_cons] at this ⊢
    omega

theorem mergeParasLoop_fixpoint :
    ∀ (fuel : ℕ) (l : List Section), l.length < fuel →
      (mergeParasOnce (mergeParasLoop fuel l)).2 = false := by
  intro fuel
  induction fuel with
  | zero => intro l h; omega
  | succ n ih =>
    intro l h
    simp only [mergeParasLoop]
    cases hch : (mergeParasOnce l).2 with
    | true =>
      simp only [hch, if_pos]
      apply ih
      have := mergeParasOnce_snd_true hch
      omega
    | false =>
      simp only [hch, Bool.false_eq_true, if_false]
      rw [mergeParasOnce_snd_false hch]
      exact hch

/-- `mergeAdjacentParagraphs` reaches the `while (changed)` fixed
point of the source: one more scan after it reports no change. -/
theorem mergeAdjacentParagraphs_fixpoint (l : List Section) :
    (mergeParasOnce (mergeAdjacentParagraphs l)).2 = false ∧
    (mergeParasOnce (mergeAdjacentParagraphs l)).1 = mergeAdjacentParagraphs l := by
  have h := mergeParasLoop_fixpoint (l.length + 1) l (by omega)
  exact ⟨h, mergeParasOnce_snd_false h⟩

/-! ## Claim C1: amended theorem -/

theorem isLikelyHeading_zero (t : String) : isLikelyHeading t (some 0) false = false := by
  have e1 : jsGt (some 0) 14 = false := by decide
  have e2 : jsGt (some 0) 12 = false := by decide
  have e3 : jsGt (some 0) 16 = false := by decide
  simp [isLikelyHeading, e1, e2, e3]

theorem processElement_plain_div (x : String) (hx : jsTrim x = x) (hx2 : x ≠ "") :
    processElement (Node.elem "div" [] [Node.text x]) =
      some [createSection .paragraph x] := by
  unfold processElement
  simp only []
  rw [show tagLower "div" = "div" from rfl]
  rw [if_neg (by decide), if_neg (by decide), if_pos (by simp)]
  unfold processTextElement
  have htc : textContent (Node.elem "div" [] [Node.text x]) = x := by
    show textContentList [Node.text x] = x
    rw [textContentList, textContentList, textContent, String.append_empty]
  rw [htc, hx, if_neg hx2]
  simp only []
  rw [if_pos (by simp)]
  have hnest : extractNestedHeading (Node.elem "div" [] [Node.text x]) = none := by
    simp only [extractNestedHeading]
    rw [show firstElementChild [Node.text x] = none from rfl]
  rw [hnest]
  simp only []
  have hfp : extractFontProperties (Node.elem "div" [] [Node.text x]) = (some 0, false) := rfl
  rw [hfp]
  rw [if_neg (by simp [isLikelyHeading_zero])]
  rw [if_pos (by simp)]

theorem segNode_plain_div (x : String) (hx : jsTrim x = x) (hx2 : x ≠ "") :
    segNode false (Node.elem "div" [] [Node.text x]) = [createSection .paragraph x] := by
  have hpm : ¬(isPageMarker (Node.elem "div" [] [Node.text x]) = true) := by
    rw [show isPageMarker (Node.elem "div" [] [Node.text x]) = false from rfl]
    simp
  rw [segNode, if_neg hpm, if_neg (by simp), processElement_plain_div x hx hx2]
  rw [show segList true [Node.text x] = [] from by rw [segList, segNode, segList]; rfl]
  rfl

theorem hyphFixContent_para_id {x : String} (hx2 : x ≠ "") (hfix : fixHyphenatedWords x = x) :
    hyphFixContent (createSection .paragraph x) = createSection .paragraph x := by
  unfold hyphFixContent
  rw [if_pos (by simpa [createSection] using hx2)]
  simp [createSection, hfix]

/-- Claim C1, amended: `extractSectionsFromDocument` runs the merge
pipeline per page, so the claimed cross-page merge never happens
there (see the counterexample); the merge does happen whenever the
two pages' markup is segmented by a single `parseHTMLIntoBlocks` call
(page-marker wrappers concatenated into one stream): a paragraph
ending the first page without terminal punctuation (and not in a
hyphen) and a paragraph beginning the next page with a lowercase
letter are merged into a single paragraph spanning both pages'
content. -/
theorem C1_cross_page_merge_amended (a b : String)
    (h1 : jsTrim a = a) (h2 : jsTrim b = b)
    (h3 : a ≠ "") (h4 : b ≠ "")
    (h5 : fixHyphenatedWords a = a) (h6 : fixHyphenatedWords b = b)
    (h7 : endsWithChar a '-' = false)
    (h8 : endsWithPunct a = false)
    (h9 : ∃ c rest, b.data = c :: rest ∧ isLowerAZ c = true) :
    parseHTMLIntoBlocks
        [Node.elem "div" [("id", "page0")] [Node.elem "div" [] [Node.text a]],
         Node.elem "div" [("id", "page1")] [Node.elem "div" [] [Node.text b]]] =
      [createSection .paragraph (a ++ " " ++ b)] := by
  have hseg : segList false
      [Node.elem "div" [("id", "page0")] [Node.elem "div" [] [Node.text a]],
       Node.elem "div" [("id", "page1")] [Node.elem "div" [] [Node.text b]]] =
      [createSection .paragraph a, createSection .paragraph b] := by
    rw [segList, segList, segList]
    rw [segNode, if_pos (by rfl)]
    rw [show (segNode false (Node.elem "div" [("id", "page1")]
        [Node.elem "div" [] [Node.text b]]) : List Section) =
      segList false [Node.elem "div" [] [Node.text b]] from by rw [segNode, if_pos (by rfl)]]
    rw [segList, segList, segList, segList]
    rw [segNode_plain_div a h1 h3, segNode_plain_div b h2 h4]
    rfl
  have hpass1 : mergeHyphenatedWords
      [createSection .paragraph a, createSection .paragraph b] =
      [createSection .paragraph a, createSection .paragraph b] := by
    rw [mergeHyphenatedWords]
    simp only [hyphFixContent_para_id h3 h5, hyphFixContent_para_id h4 h6]
    rw [if_pos ⟨rfl, rfl⟩]
    have hcond : (endsWithChar (jsTrim (createSection .paragraph a).content) '-' &&
        decide (jsTrim (createSection .paragraph b).content ≠ "") &&
        startsLowerJS (jsTrim (createSection .paragraph b).content)) = false := by
      rw [show (createSection .paragraph a).content = a from rfl, h1, h7]
      rfl
    rw [if_neg (by rw [hcond]; simp)]
    rw [mergeHyphenatedWords]
    rw [hyphFixContent_para_id h4 h6]
  have hlower : startsLowerJS b = true := by
    obtain ⟨c, rest, hb, hc⟩ := h9
    unfold startsLowerJS
    rw [hb]
    have hcl : jsToLowerChar c = c := by
      unfold jsToLowerChar
      rw [if_neg]
      simp only [isLowerAZ, Bool.and_eq_true, decide_eq_true_eq] at hc
      omega
    simp [hcl]
  have hb' : jsTrim b ≠ "" := by rw [h2]; exact h4
  have hpass2 : mergeAdjacentParagraphs
      [createSection .paragraph a, createSection .paragraph b] =
      [createSection .paragraph (a ++ " " ++ b)] := by
    rw [mergeParas_pair a b hb']
    rw [if_pos]
    rw [h1, h2]
    unfold shouldMergeParas
    simp only [h8, hlower, Bool.not_false, Bool.true_and, Bool.and_true, Bool.or_eq_true]
    exact Or.inl (Or.inl trivial)
  have hpass3 : mergeAdjacentHeadings [createSection .paragraph (a ++ " " ++ b)] =
      [createSection .paragraph (a ++ " " ++ b)] := by
    rw [mergeAdjacentHeadings]
  unfold parseHTMLIntoBlocks
  rw [hseg, hpass1, hpass2, hpass3]

theorem C1_witness :
    jsTrim "hello" = "hello" ∧ jsTrim "world." = "world." ∧
    ("hello" : String) ≠ "" ∧ ("world." : String) ≠ "" ∧
    fixHyphenatedWords "hello" = "hello" ∧ fixHyphenatedWords "world." = "world." ∧
    endsWithChar "hello" '-' = false ∧ endsWithPunct "hello" = false ∧
    parseHTMLIntoBlocks
        [Node.elem "div" [("id", "page0")] [Node.elem "div" [] [Node.text "hello"]],
         Node.elem "div" [("id", "page1")] [Node.elem "div" [] [Node.text "world."]]] =
      [createSection .paragraph ("hello" ++ " " ++ "world.")] :=
  ⟨by decide, by decide, by decide, by decide, by decide, by decide, by decide, by decide,
   C1_cross_page_merge_amended "hello" "world." (by decide) (by decide) (by decide)
     (by decide) (by decide) (by decide) (by decide) (by decide)
     ⟨'w', "orld.".data, rfl, by decide⟩⟩

end Mobpdf
